import Mathlib

/-!
Verification of the horned-pony preforking HTTP/1.0 server (`horned.py`)
against its natural-language specification.

The development shallowly embeds the request-handling core of the program:
byte strings become `List Char` (the program is Python 2, where `str` is a
byte string), sockets become explicit record states, exceptions become
`Except`, and the per-request worker state (buffered stream, `headers_sent`
flag, counters) is threaded explicitly.
-/

/-- The characters of the two-byte CRLF line terminator. -/
def crlf : List Char := ['\r', '\n']

/-- The characters of the header-block terminator CRLFCRLF. -/
def crlfcrlf : List Char := ['\r', '\n', '\r', '\n']

/-- Python `haystack.find(needle)`: index of the first occurrence of `pat`
as a contiguous substring, or `none` when absent ( Python returns -1). -/
def findSub (pat : List Char) : List Char → Option Nat
  | [] => if pat = [] then some 0 else none
  | c :: rest => if pat <+: c :: rest then some 0 else (findSub pat rest).map (· + 1)

/-- Python `s.partition(sep)` restricted to a single-character separator,
returning `none` when the separator is absent (used to model unpacking).
`some (before, after)` drops the separator itself. -/
def breakAt (x : Char) (cs : List Char) : Option (List Char × List Char) :=
  if x ∈ cs then some (cs.takeWhile fun c => c ≠ x, (cs.dropWhile fun c => c ≠ x).tail)
  else none

/-! ### Basic lemmas about `findSub` -/

theorem cons_ne_of_head {a b : Char} {l m : List Char} (h : a ≠ b) : a :: l ≠ b :: m := by
  intro he
  injection he with h1 _
  exact h h1

theorem takeWhile_append_of_not_mem {x : Char} {l : List Char} (r : List Char)
    (hx : x ∉ l) : (l ++ x :: r).takeWhile (fun c => c ≠ x) = l := by
  induction l with
  | nil => simp [List.takeWhile]
  | cons a t ih =>
    have ha : a ≠ x := fun h => hx (h ▸ List.mem_cons_self a t)
    have ht : x ∉ t := fun h => hx (List.mem_cons_of_mem a h)
    rw [List.cons_append, List.takeWhile_cons_of_pos (by simpa using ha), ih ht]

theorem dropWhile_append_of_not_mem {x : Char} {l : List Char} (r : List Char)
    (hx : x ∉ l) : (l ++ x :: r).dropWhile (fun c => c ≠ x) = x :: r := by
  induction l with
  | nil => simp [List.dropWhile]
  | cons a t ih =>
    have ha : a ≠ x := fun h => hx (h ▸ List.mem_cons_self a t)
    have ht : x ∉ t := fun h => hx (List.mem_cons_of_mem a h)
    rw [List.cons_append, List.dropWhile_cons_of_pos (by simpa using ha), ih ht]

theorem findSub_eq_some_iff {pat l : List Char} {i : Nat} :
    findSub pat l = some i ↔ (pat <+: l.drop i ∧ ∀ j < i, ¬ pat <+: l.drop j) := by
  induction l generalizing i with
  | nil =>
    by_cases hp : pat = []
    · subst hp
      simp only [findSub, if_pos rfl]
      constructor
      · rintro h
        injection h with h
        subst h
        exact ⟨ List.nil_prefix, by omega⟩
      · rintro ⟨-, hmin⟩
        rcases Nat.eq_zero_or_pos i with h0 | h0
        · simp [h0]
        · exact absurd List.nil_prefix (hmin 0 h0)
    · simp only [findSub, if_neg hp]
      constructor
      · intro h; exact absurd h (by simp)
      · rintro ⟨hpre, -⟩
        simp at hpre
        exact absurd hpre hp
  | cons c rest ih =>
    by_cases h0 : pat <+: c :: rest
    · simp only [findSub, if_pos h0]
      constructor
      · intro h
        injection h with h
        subst h
        exact ⟨h0, by omega⟩
      · rintro ⟨-, hmin⟩
        rcases Nat.eq_zero_or_pos i with h | h
        · simp [h]
        · exact absurd h0 (hmin 0 h)
    · simp only [findSub, if_neg h0]
      constructor
      · intro h
        rcases Option.map_eq_some'.mp h with ⟨j, hj, hji⟩
        subst hji
        rcases ih.mp hj with ⟨hpre, hmin⟩
        refine ⟨by simpa using hpre, ?_⟩
        intro k hk
        cases k with
        | zero => simpa using h0
        | succ k' =>
          intro hc
          exact hmin k' (by omega) (by simpa using hc)
      · rintro ⟨hpre, hmin⟩
        cases i with
        | zero => exact absurd (by simpa using hpre) h0
        | succ i' =>
          have : findSub pat rest = some i' := by
            refine ih.mpr ⟨by simpa using hpre, ?_⟩
            intro j hj hc
            exact hmin (j + 1) (by omega) (by simpa using hc)
          simp [this]

theorem findSub_eq_none_iff {pat l : List Char} :
    findSub pat l = none ↔ ∀ j, ¬ pat <+: l.drop j := by
  constructor
  · intro h j hc
    induction l generalizing j with
    | nil =>
      have hp : pat ≠ [] := by
        intro hn
        simp [findSub, hn] at h
      simp at hc
      exact hp hc
    | cons c rest ih =>
      by_cases h0 : pat <+: c :: rest
      · simp [findSub, h0] at h
      · simp only [findSub, if_neg h0, Option.map_eq_none'] at h
        cases j with
        | zero => exact h0 (by simpa using hc)
        | succ j' => exact ih h j' (by simpa using hc)
  · intro hall
    cases h : findSub pat l with
    | none => rfl
    | some i =>
      rcases findSub_eq_some_iff.mp h with ⟨hpre, -⟩
      exact absurd hpre (hall i)

theorem findSub_some_le_length {pat l : List Char} {i : Nat}
    (h : findSub pat l = some i) : i + pat.length ≤ l.length := by
  rcases findSub_eq_some_iff.mp h with ⟨hpre, hmin⟩
  have := hpre.length_le
  have hld : (l.drop i).length = l.length - i := List.length_drop i l
  rcases le_or_lt i l.length with hle | hlt
  · omega
  · have hd : l.drop i = [] := List.drop_eq_nil_of_le (by omega)
    rw [hd] at hpre
    have hpat : pat = [] := List.prefix_nil.mp hpre
    subst hpat
    have hi : i = 0 := by
      by_contra hne
      exact hmin 0 (by omega) List.nil_prefix
    omega

/-- First occurrences are stable under extending the byte string on the right:
the index found in a prefix is the index found in the whole. -/
theorem findSub_extend {pat b t : List Char} {i : Nat}
    (hbt : b <+: t) (h : findSub pat b = some i) : findSub pat t = some i := by
  rcases hbt with ⟨s, rfl⟩
  rcases findSub_eq_some_iff.mp h with ⟨hpre, hmin⟩
  have hlen : i + pat.length ≤ b.length := findSub_some_le_length h
  refine findSub_eq_some_iff.mpr ⟨?_, ?_⟩
  · rw [List.drop_append_eq_append_drop]
    have : i - b.length = 0 := by omega
    rw [this, List.drop_zero]
    exact hpre.trans (List.prefix_append _ _)
  · intro j hj hc
    refine hmin j hj ?_
    rw [List.drop_append_eq_append_drop] at hc
    have hjb : j - b.length = 0 := by omega
    rw [hjb, List.drop_zero] at hc
    have hlenj : pat.length ≤ (b.drop j).length := by
      rw [List.length_drop]
      omega
    have := List.prefix_iff_eq_take.mp hc
    rw [List.take_append_eq_append_take] at this
    have hz : pat.length - (b.drop j).length = 0 := by omega
    rw [hz, List.take_zero, List.append_nil] at this
    exact List.prefix_iff_eq_take.mpr this

/-- Scanning for a pattern that starts with `c` skips over any block free of
`c`, shifting the found index by the block's length. -/
theorem findSub_append_of_head_not_mem {c : Char} {p l r : List Char} (hc : c ∉ l) :
    findSub (c :: p) (l ++ r) = (findSub (c :: p) r).map (· + l.length) := by
  induction l with
  | nil =>
    cases h : findSub (c :: p) r <;> simp [h]
  | cons a t ih =>
    have ha : a ≠ c := fun h => hc (h ▸ List.mem_cons_self a t)
    have ht : c ∉ t := fun h => hc (List.mem_cons_of_mem a h)
    have hnp : ¬ (c :: p <+: a :: (t ++ r)) := by
      intro hpre
      rcases hpre with ⟨s, hs⟩
      injection hs with h1 _
      exact ha h1.symm
    rw [List.cons_append, findSub]
    rw [if_neg hnp, ih ht]
    cases h : findSub (c :: p) r <;> simp [h] <;> omega

theorem crlf_prepend_block {l r : List Char} (hne : l ≠ []) (hl : '\r' ∉ l) :
    findSub crlfcrlf ('\r' :: '\n' :: (l ++ r)) =
      (findSub crlfcrlf (l ++ r)).map (· + 2) := by
  rcases l with _ | ⟨a, t⟩
  · exact absurd rfl hne
  · have ha : a ≠ '\r' := fun h => hl (h ▸ List.mem_cons_self a t)
    have h0 : ¬ (crlfcrlf <+: '\r' :: '\n' :: (a :: t ++ r)) := by
      intro hpre
      rcases hpre with ⟨s, hs⟩
      simp only [crlfcrlf] at hs
      injection hs with h1 hs
      injection hs with h2 hs
      injection hs with h3 _
      exact ha h3.symm
    have h1 : ¬ (crlfcrlf <+: '\n' :: (a :: t ++ r)) := by
      intro hpre
      rcases hpre with ⟨s, hs⟩
      simp only [crlfcrlf] at hs
      injection hs with h1 _
      exact absurd h1.symm (by decide)
    rw [findSub, if_neg h0, findSub, if_neg h1]
    cases h : findSub crlfcrlf (a :: t ++ r) <;> simp [h]

/-- Python `s.split("\r\n")`: cut at each leftmost occurrence of CRLF.
Fuel-based recursion (the fuel, initially the string length, strictly
dominates the number of cuts) keeps the definition kernel-reducible. -/
def splitCRLFAux : Nat → List Char → List (List Char)
  | 0, cs => [cs]
  | fuel + 1, cs =>
    match findSub crlf cs with
    | none => [cs]
    | some i => cs.take i :: splitCRLFAux fuel (cs.drop (i + 2))

def splitCRLF (cs : List Char) : List (List Char) := splitCRLFAux cs.length cs

theorem splitCRLFAux_irrel : ∀ f g : Nat, ∀ cs : List Char,
    cs.length ≤ f → cs.length ≤ g → splitCRLFAux f cs = splitCRLFAux g cs := by
  intro f
  induction f with
  | zero =>
    intro g cs hf hg
    have hnil : cs = [] := List.eq_nil_of_length_eq_zero (by omega)
    subst hnil
    cases g <;> rfl
  | succ f' ih =>
    intro g cs hf hg
    cases g with
    | zero =>
      have hnil : cs = [] := List.eq_nil_of_length_eq_zero (by omega)
      subst hnil
      rfl
    | succ g' =>
      show (match findSub crlf cs with
            | none => [cs]
            | some i => cs.take i :: splitCRLFAux f' (cs.drop (i + 2))) =
           (match findSub crlf cs with
            | none => [cs]
            | some i => cs.take i :: splitCRLFAux g' (cs.drop (i + 2)))
      cases h : findSub crlf cs with
      | none => rfl
      | some i =>
        have hle := findSub_some_le_length h
        simp only [crlf, List.length_cons, List.length_nil] at hle
        have hdl : (cs.drop (i + 2)).length = cs.length - (i + 2) := List.length_drop _ _
        simp only []
        congr 1
        exact ih g' _ (by omega) (by omega)

theorem splitCRLF_of_none {cs : List Char} (h : findSub crlf cs = none) :
    splitCRLF cs = [cs] := by
  cases cs with
  | nil => rfl
  | cons a t =>
    show (match findSub crlf (a :: t) with
          | none => [a :: t]
          | some i => (a :: t).take i :: splitCRLFAux t.length ((a :: t).drop (i + 2))) =
        [a :: t]
    rw [h]

theorem splitCRLF_of_some {cs : List Char} {i : Nat} (h : findSub crlf cs = some i) :
    splitCRLF cs = cs.take i :: splitCRLF (cs.drop (i + 2)) := by
  cases cs with
  | nil =>
    rw [show findSub crlf ([] : List Char) = none from rfl] at h
    cases h
  | cons a t =>
    have hle := findSub_some_le_length h
    simp only [crlf, List.length_cons, List.length_nil] at hle
    show (match findSub crlf (a :: t) with
          | none => [a :: t]
          | some j => (a :: t).take j :: splitCRLFAux t.length ((a :: t).drop (j + 2))) = _
    rw [h]
    show (a :: t).take i :: splitCRLFAux t.length ((a :: t).drop (i + 2)) =
        (a :: t).take i :: splitCRLF ((a :: t).drop (i + 2))
    congr 1
    refine splitCRLFAux_irrel _ _ _ ?_ (le_refl _)
    have hdl : ((a :: t).drop (i + 2)).length = (a :: t).length - (i + 2) :=
      List.length_drop _ _
    simp only [List.length_cons] at hdl ⊢
    omega

/-- Splitting a rendered line off a CRLF-joined block. -/
theorem splitCRLF_append {l r : List Char} (hl : '\r' ∉ l) :
    splitCRLF (l ++ '\r' :: '\n' :: r) = l :: splitCRLF r := by
  have hfind : findSub crlf (l ++ '\r' :: '\n' :: r) = some l.length := by
    have h0 : findSub crlf ('\r' :: '\n' :: r) = some 0 := by
      rw [findSub, if_pos ⟨r, by simp [crlf]⟩]
    have := @findSub_append_of_head_not_mem '\r' ['\n'] l ('\r' :: '\n' :: r) hl
    simp only [crlf] at h0 ⊢
    rw [this, h0]
    simp
  rw [splitCRLF_of_some hfind]
  congr 1
  · rw [List.take_append_eq_append_take]
    simp
  · rw [List.drop_append_eq_append_drop]
    have h1 : l.length + 2 - l.length = 2 := by omega
    rw [List.drop_eq_nil_of_le (by omega), h1]
    simp

/-! ### Percent-decoding (`urlunquote` and the `charfromhex` table) -/

/-- The sixteen lowercase hex digit characters, in value order. -/
def hexdigitsLower : List Char := "0123456789abcdef".data

/-- The sixteen uppercase hex digit characters, in value order. -/
def hexdigitsUpper : List Char := "0123456789ABCDEF".data

/-- The two characters of Python's `"%02x" % i` (or `"%02X"` for the upper
list) for a byte value `i < 256`. -/
def hex2 (digits : List Char) (i : Nat) : List Char :=
  [digits.getD (i / 16) ' ', digits.getD (i % 16) ' ']

/-- The source builds `charfromhex` by looping `i` over 0..255 and keying the
dict on both `"%02x" % i` and `"%02X" % i`, mapping each to `chr(i)`.  Dict
lookup `charfromhex.get(code)` is modelled as a scan for a matching key. -/
def charfromhex (code : List Char) : Option Char :=
  (List.range 256).findSome? fun i =>
    if code = hex2 hexdigitsLower i ∨ code = hex2 hexdigitsUpper i then some (Char.ofNat i)
    else none

theorem percent_rest_length {quoted : List Char} (h : '%' ∈ quoted) :
    ((quoted.dropWhile fun c => c ≠ '%').tail.drop 2).length < quoted.length := by
  have h1 : quoted.dropWhile (fun c => c ≠ '%') ≠ [] := by
    intro hnil
    have hall := List.dropWhile_eq_nil_iff.mp hnil
    have hfalse := hall '%' h
    simp at hfalse
  have h2 : (quoted.dropWhile fun c => c ≠ '%').length ≤ quoted.length :=
    (List.dropWhile_suffix _).length_le
  have h3 : ((quoted.dropWhile fun c => c ≠ '%').tail).length
      = (quoted.dropWhile fun c => c ≠ '%').length - 1 := List.length_tail _
  have h4 : 0 < (quoted.dropWhile fun c => c ≠ '%').length := List.length_pos.mpr h1
  simp only [List.length_drop]
  omega

/-- `urlunquote` from the source: repeatedly partition at the first `%`,
look the next two characters up in `charfromhex`, and emit either the decoded
byte or the literal `%` plus the offending characters; the remainder after
those two characters is processed next, the emitted text is never rescanned.
Fuel-based recursion (each round consumes at least the `%`) keeps the
definition kernel-reducible. -/
def urlunquoteAux : Nat → List Char → List Char
  | 0, quoted => quoted
  | fuel + 1, quoted =>
    if '%' ∈ quoted then
      (quoted.takeWhile fun c => c ≠ '%') ++
        (match charfromhex ((quoted.dropWhile fun c => c ≠ '%').tail.take 2) with
         | some c => [c]
         | none => '%' :: (quoted.dropWhile fun c => c ≠ '%').tail.take 2) ++
        urlunquoteAux fuel ((quoted.dropWhile fun c => c ≠ '%').tail.drop 2)
    else quoted

def urlunquote (quoted : List Char) : List Char := urlunquoteAux quoted.length quoted

theorem urlunquoteAux_irrel : ∀ f g : Nat, ∀ cs : List Char,
    cs.length ≤ f → cs.length ≤ g → urlunquoteAux f cs = urlunquoteAux g cs := by
  intro f
  induction f with
  | zero =>
    intro g cs hf hg
    have hnil : cs = [] := List.eq_nil_of_length_eq_zero (by omega)
    subst hnil
    cases g <;> rfl
  | succ f' ih =>
    intro g cs hf hg
    cases g with
    | zero =>
      have hnil : cs = [] := List.eq_nil_of_length_eq_zero (by omega)
      subst hnil
      rfl
    | succ g' =>
      show (if '%' ∈ cs then _ else cs) = (if '%' ∈ cs then _ else cs)
      by_cases hm : '%' ∈ cs
      · rw [if_pos hm, if_pos hm]
        have hlt := percent_rest_length hm
        congr 1
        exact ih g' _ (by omega) (by omega)
      · rw [if_neg hm, if_neg hm]

/-- The defining equation of `urlunquote`, independent of the fuel. -/
theorem urlunquote_eq (quoted : List Char) :
    urlunquote quoted =
      if '%' ∈ quoted then
        (quoted.takeWhile fun c => c ≠ '%') ++
          (match charfromhex ((quoted.dropWhile fun c => c ≠ '%').tail.take 2) with
           | some c => [c]
           | none => '%' :: (quoted.dropWhile fun c => c ≠ '%').tail.take 2) ++
          urlunquote ((quoted.dropWhile fun c => c ≠ '%').tail.drop 2)
      else quoted := by
  cases quoted with
  | nil => rfl
  | cons a t =>
    show (if '%' ∈ a :: t then _ else a :: t) = _
    by_cases hm : '%' ∈ a :: t
    · rw [if_pos hm, if_pos hm]
      have hlt := percent_rest_length hm
      congr 1
      refine urlunquoteAux_irrel _ _ _ ?_ (le_refl _)
      simp only [List.length_cons] at hlt ⊢
      omega
    · rw [if_neg hm, if_neg hm]

theorem urlunquote_no_escape {cs : List Char} (h : '%' ∉ cs) : urlunquote cs = cs := by
  rw [urlunquote_eq, if_neg h]

theorem urlunquote_step {pre after : List Char} (hpre : '%' ∉ pre) :
    urlunquote (pre ++ '%' :: after) =
      pre ++ (match charfromhex (after.take 2) with
              | some c => [c]
              | none => '%' :: after.take 2) ++ urlunquote (after.drop 2) := by
  have hmem : '%' ∈ pre ++ '%' :: after := List.mem_append_right _ (List.mem_cons_self _ _)
  rw [urlunquote_eq, if_pos hmem]
  rw [takeWhile_append_of_not_mem _ hpre, dropWhile_append_of_not_mem _ hpre]
  rfl

/-- An escape's two characters hit a key of `charfromhex` exactly when they
are both lowercase hex digits or both uppercase hex digits (decimal digits
belong to both renderings). -/
def validEscapePair (c1 c2 : Char) : Bool :=
  (decide (c1 ∈ hexdigitsLower) && decide (c2 ∈ hexdigitsLower)) ||
  (decide (c1 ∈ hexdigitsUpper) && decide (c2 ∈ hexdigitsUpper))

theorem hexdigits_getD_inj : ∀ x < 16, ∀ y < 16,
    (hexdigitsLower.getD x ' ' = hexdigitsLower.getD y ' ' → x = y) ∧
    (hexdigitsUpper.getD x ' ' = hexdigitsUpper.getD y ' ' → x = y) ∧
    (hexdigitsLower.getD x ' ' = hexdigitsUpper.getD y ' ' → x = y) := by decide

theorem hexdigits_getD_mem : ∀ x < 16,
    hexdigitsLower.getD x ' ' ∈ hexdigitsLower ∧
    hexdigitsUpper.getD x ' ' ∈ hexdigitsUpper := by decide

theorem findSome_eq_some_of_unique {α β : Type} {l : List α} {f : α → Option β} {b : α}
    {v : β} (hmem : b ∈ l) (hfb : f b = some v)
    (hothers : ∀ i ∈ l, i ≠ b → f i = none) : l.findSome? f = some v := by
  induction l with
  | nil => cases hmem
  | cons a t ih =>
    rw [List.findSome?_cons]
    by_cases hab : a = b
    · subst hab
      rw [hfb]
    · rw [hothers a (List.mem_cons_self a t) hab]
      have hbt : b ∈ t := by
        rcases List.mem_cons.mp hmem with h | h
        · exact absurd h.symm hab
        · exact h
      exact ih hbt fun i hi => hothers i (List.mem_cons_of_mem a hi)

theorem charfromhex_hex2 {b : Nat} (hb : b < 256) :
    charfromhex (hex2 hexdigitsLower b) = some (Char.ofNat b) ∧
    charfromhex (hex2 hexdigitsUpper b) = some (Char.ofNat b) := by
  have hdiv : b / 16 < 16 := by omega
  have hmod : b % 16 < 16 := by omega
  have hsplit : b = 16 * (b / 16) + b % 16 := by omega
  constructor <;>
  · refine findSome_eq_some_of_unique (List.mem_range.mpr hb) (by simp) ?_
    intro i hi hib
    have hi256 : i < 256 := List.mem_range.mp hi
    have hidiv : i / 16 < 16 := by omega
    have himod : i % 16 < 16 := by omega
    rw [if_neg]
    intro hcond
    rcases hcond with hcode | hcode <;>
    · simp only [hex2, List.cons.injEq, and_true] at hcode
      rcases hcode with ⟨h1, h2⟩
      refine hib (show i = b from ?_)
      have e1 : b / 16 = i / 16 ∨ i / 16 = b / 16 := by
        first
        | exact Or.inl ((hexdigits_getD_inj _ hdiv _ hidiv).1 h1)
        | exact Or.inl ((hexdigits_getD_inj _ hdiv _ hidiv).2.1 h1)
        | exact Or.inl ((hexdigits_getD_inj _ hdiv _ hidiv).2.2 h1)
        | exact Or.inr ((hexdigits_getD_inj _ hidiv _ hdiv).2.2 h1.symm)
      have e2 : b % 16 = i % 16 ∨ i % 16 = b % 16 := by
        first
        | exact Or.inl ((hexdigits_getD_inj _ hmod _ himod).1 h2)
        | exact Or.inl ((hexdigits_getD_inj _ hmod _ himod).2.1 h2)
        | exact Or.inl ((hexdigits_getD_inj _ hmod _ himod).2.2 h2)
        | exact Or.inr ((hexdigits_getD_inj _ himod _ hmod).2.2 h2.symm)
      rcases e1 with e1 | e1 <;> rcases e2 with e2 | e2 <;> omega

theorem charfromhex_eq_none {c1 c2 : Char} (hv : validEscapePair c1 c2 = false) :
    charfromhex [c1, c2] = none := by
  refine List.findSome?_eq_none_iff.mpr ?_
  intro i hi
  have hi256 : i < 256 := List.mem_range.mp hi
  have hidiv : i / 16 < 16 := by omega
  have himod : i % 16 < 16 := by omega
  rw [if_neg]
  intro hcond
  rcases hcond with hcode | hcode <;>
    simp only [hex2, List.cons.injEq, and_true] at hcode <;>
    rcases hcode with ⟨h1, h2⟩
  · have m1 := (hexdigits_getD_mem _ hidiv).1
    have m2 := (hexdigits_getD_mem _ himod).1
    rw [← h1] at m1
    rw [← h2] at m2
    simp [validEscapePair, m1, m2] at hv
  · have m1 := (hexdigits_getD_mem _ hidiv).2
    have m2 := (hexdigits_getD_mem _ himod).2
    rw [← h1] at m1
    rw [← h2] at m2
    simp [validEscapePair, m1, m2] at hv

theorem charfromhex_some_length {code : List Char} {c : Char}
    (h : charfromhex code = some c) : code.length = 2 := by
  rcases List.exists_of_findSome?_eq_some h with ⟨i, -, hf⟩
  by_cases hcond : code = hex2 hexdigitsLower i ∨ code = hex2 hexdigitsUpper i
  · rcases hcond with hc | hc <;> rw [hc] <;> rfl
  · rw [if_neg hcond] at hf
    cases hf

/-- Every pair of same-case hex digits is the rendering of a unique byte. -/
theorem validEscapePair_exists {c1 c2 : Char} (hv : validEscapePair c1 c2 = true) :
    ∃ b : Nat, b < 256 ∧
      ([c1, c2] = hex2 hexdigitsLower b ∨ [c1, c2] = hex2 hexdigitsUpper b) := by
  simp only [validEscapePair, Bool.or_eq_true, Bool.and_eq_true, decide_eq_true_eq] at hv
  rcases hv with ⟨m1, m2⟩ | ⟨m1, m2⟩
  · rcases List.mem_iff_get.mp m1 with ⟨⟨n1, hn1⟩, hg1⟩
    rcases List.mem_iff_get.mp m2 with ⟨⟨n2, hn2⟩, hg2⟩
    have hl : hexdigitsLower.length = 16 := rfl
    refine ⟨16 * n1 + n2, by omega, Or.inl ?_⟩
    have hdiv : (16 * n1 + n2) / 16 = n1 := by omega
    have hmod : (16 * n1 + n2) % 16 = n2 := by omega
    simp only [hex2, hdiv, hmod]
    rw [List.getD_eq_getElem _ _ (by omega), List.getD_eq_getElem _ _ (by omega)]
    simp only [List.cons.injEq, and_true]
    exact ⟨(by simpa [List.get_eq_getElem] using hg1.symm),
           (by simpa [List.get_eq_getElem] using hg2.symm)⟩
  · rcases List.mem_iff_get.mp m1 with ⟨⟨n1, hn1⟩, hg1⟩
    rcases List.mem_iff_get.mp m2 with ⟨⟨n2, hn2⟩, hg2⟩
    have hl : hexdigitsUpper.length = 16 := rfl
    refine ⟨16 * n1 + n2, by omega, Or.inr ?_⟩
    have hdiv : (16 * n1 + n2) / 16 = n1 := by omega
    have hmod : (16 * n1 + n2) % 16 = n2 := by omega
    simp only [hex2, hdiv, hmod]
    rw [List.getD_eq_getElem _ _ (by omega), List.getD_eq_getElem _ _ (by omega)]
    simp only [List.cons.injEq, and_true]
    exact ⟨(by simpa [List.get_eq_getElem] using hg1.symm),
           (by simpa [List.get_eq_getElem] using hg2.symm)⟩

/-! ### HTTP date formatting -/

/-- The fields of Python's `time.gmtime()` that `http_date` consumes. -/
structure GmTime where
  year : Nat
  month : Nat
  day : Nat
  hour : Nat
  minute : Nat
  second : Nat
  weekday : Nat
deriving DecidableEq

/-- `HTTP_WDAY` from the source (Monday first, matching `gmtime`). -/
def HTTP_WDAY : List (List Char) :=
  ["Mon".data, "Tue".data, "Wed".data, "Thu".data, "Fri".data, "Sat".data, "Sun".data]

/-- `HTTP_MONTH` from the source; index 0 is the `None` placeholder. -/
def HTTP_MONTH : List (List Char) :=
  [[], "Jan".data, "Feb".data, "Mar".data, "Apr".data, "May".data, "Jun".data,
   "Jul".data, "Aug".data, "Sep".data, "Oct".data, "Nov".data, "Dec".data]

/-- Python `"%02d" % n`: decimal digits zero-padded to width two. -/
def fmt02d (n : Nat) : List Char :=
  let d := Nat.toDigits 10 n
  List.replicate (2 - d.length) '0' ++ d

/-- Python `"%4d" % n`: decimal digits space-padded to width four. -/
def fmt4d (n : Nat) : List Char :=
  let d := Nat.toDigits 10 n
  List.replicate (4 - d.length) ' ' ++ d

/-- Python `"%3s" % s`: space-padded on the left to width three. -/
def fmt3s (s : List Char) : List Char :=
  List.replicate (3 - s.length) ' ' ++ s

/-- `http_date` from the source: render a gmtime tuple with the format
string `"%s, %02d %3s %4d %02d:%02d:%02d GMT"` using `HTTP_WDAY` and
`HTTP_MONTH`. -/
def http_date (t : GmTime) : List Char :=
  HTTP_WDAY.getD t.weekday [] ++ ", ".data ++ fmt02d t.day ++ [' '] ++
    fmt3s (HTTP_MONTH.getD t.month []) ++ [' '] ++ fmt4d t.year ++ [' '] ++
    fmt02d t.hour ++ [':'] ++ fmt02d t.minute ++ [':'] ++ fmt02d t.second ++ " GMT".data

/-! ### The buffered socket stream (`IOStream`) -/

/-- Python exceptions that the modelled code can raise or catch. -/
inductive PyExc where
  | valueError
  | attributeError
  | importError
  | socketError (errnum : Nat)
deriving DecidableEq

/-- Is the exception an instance of `socket.error` (the only class the
worker loop catches)? -/
def PyExc.isSocketError : PyExc → Bool
  | .socketError _ => true
  | _ => false

/-- A connected socket: bytes already delivered to the peer via `sendall`,
whether the descriptor is still open, and the chunks future `recv` calls
will return (end of list = EOF). -/
structure Socket where
  sent : List Char
  opened : Bool
  incoming : List (List Char)
deriving DecidableEq

/-- `IOStream` state from the source: the underlying socket plus the read
and write accumulators. -/
structure IOStream where
  sock : Socket
  read_buffer : List Char
  write_buffer : List Char
deriving DecidableEq

/-- `IOStream.write`: append to the write accumulator, no I/O. -/
def iowrite (s : IOStream) (data : List Char) : IOStream :=
  { s with write_buffer := s.write_buffer ++ data }

/-- `IOStream.flush`: `sendall` the accumulator, then clear it. -/
def ioflush (s : IOStream) : IOStream :=
  { s with sock := { s.sock with sent := s.sock.sent ++ s.write_buffer }, write_buffer := [] }

/-- `IOStream.close` from the source: its body is exactly `self.flush()`;
no operation on the underlying socket is performed. -/
def ioclose (s : IOStream) : IOStream := ioflush s

/-- The `recv` loop of `read_until`: receive chunks and append them to the
read buffer until the delimiter occurs in the buffer, EOF (an empty chunk,
or an exhausted stream) breaks the loop first. -/
def readUntilLoop (delim : List Char) : List Char → List (List Char) → List Char × List (List Char)
  | buf, inc =>
    if (findSub delim buf).isSome then (buf, inc)
    else
      match inc with
      | [] => (buf, [])
      | c :: rest => if c = [] then (buf, rest) else readUntilLoop delim (buf ++ c) rest

/-- `IOStream.read_until` from the source: loop `recv` until the delimiter
is in the buffer or EOF, then `find` it; raise `ValueError` unless the
found index is positive; return through the delimiter and retain the rest. -/
def read_until (delim : List Char) (s : IOStream) : Except PyExc (List Char) × IOStream :=
  let r := readUntilLoop delim s.read_buffer s.sock.incoming
  let s' : IOStream := { s with sock := { s.sock with incoming := r.2 }, read_buffer := r.1 }
  match findSub delim r.1 with
  | none => (.error .valueError, s')
  | some i =>
    if i = 0 then (.error .valueError, s')
    else (.ok (r.1.take (i + delim.length)),
          { s' with read_buffer := r.1.drop (i + delim.length) })

/-! ### The WSGI environment and request parsing -/

/-- A value stored in the environment dict: a byte string, or the
`wsgi.input` stream object (other base-environment values stay abstract in
the `base` parameter). -/
inductive EnvVal where
  | str : List Char → EnvVal
  | stream : EnvVal
deriving DecidableEq

/-- The environment dict, as a lookup function. -/
def Env : Type := List Char → Option EnvVal

/-- Python dict assignment `env[k] = v`. -/
def envSet (k : List Char) (v : EnvVal) (e : Env) : Env :=
  fun k' => if k' = k then some v else e k'

theorem envSet_self {k : List Char} {v : EnvVal} {e : Env} : envSet k v e k = some v := by
  simp [envSet]

theorem envSet_ne {k k' : List Char} {v : EnvVal} {e : Env} (h : k' ≠ k) :
    envSet k v e k' = e k' := by
  simp [envSet, h]

def kREQUEST_METHOD : List Char := ['R','E','Q','U','E','S','T','_','M','E','T','H','O','D']
def kSERVER_PROTOCOL : List Char := ['S','E','R','V','E','R','_','P','R','O','T','O','C','O','L']
def kREMOTE_ADDR : List Char := ['R','E','M','O','T','E','_','A','D','D','R']
def kQUERY_STRING : List Char := ['Q','U','E','R','Y','_','S','T','R','I','N','G']
def kPATH_INFO : List Char := ['P','A','T','H','_','I','N','F','O']
def kWSGI_INPUT : List Char := ['w','s','g','i','.','i','n','p','u','t']
def kHTTP : List Char := ['H','T','T','P','_']

/-- Header-name canonicalization from the source:
`key.replace("-", "_").upper()` (Python 2 `str.upper` is ASCII-only). -/
def canonKey (n : List Char) : List Char :=
  (n.map fun c => if c = '-' then '_' else c).map Char.toUpper

/-- Python 2 `str.strip()` whitespace predicate. -/
def isPySpace (c : Char) : Bool :=
  c = ' ' || c = '\t' || c = '\n' || c = '\r' || c = '\x0B' || c = '\x0C'

/-- Python `value.strip()`: remove leading and trailing whitespace. -/
def pyStrip (l : List Char) : List Char :=
  ((l.dropWhile isPySpace).reverse.dropWhile isPySpace).reverse

/-- Python 2 `str.lower()` (ASCII-only). -/
def pyLower (l : List Char) : List Char := l.map Char.toLower

/-- The configuration options the modelled code reads. The application is
either the callable itself or a dotted name to be imported by `get_app`. -/
inductive AppRef (App : Type) where
  | callable : App → AppRef App
  | dotted : List Char → AppRef App

/-- The header-parsing loop of `parse_request`: for each line until an empty
one, partition at the first `:`, canonicalize the name, strip the value, and
assign `env["HTTP_" + key]`. -/
def parseHeaders : List (List Char) → Env → Env
  | [], e => e
  | line :: rest, e =>
    if line = [] then e
    else
      let key := line.takeWhile fun c => c ≠ ':'
      let value := if ':' ∈ line then (line.dropWhile fun c => c ≠ ':').tail else []
      parseHeaders rest (envSet (kHTTP ++ canonKey key) (.str (pyStrip value)) e)

/-- Python `reqline.split(" ", 2)` unpacked into three names; `none` models
the `ValueError` raised when there are fewer than three parts. -/
def splitSp2 (cs : List Char) : Option (List Char × List Char × List Char) :=
  match breakAt ' ' cs with
  | none => none
  | some (a, r) =>
    match breakAt ' ' r with
    | none => none
    | some (b, c) => some (a, b, c)

/-- A Python iterable of body chunks, remembering whether the object also
exposes a `close` attribute (`hasattr(obj, "close")`). -/
structure PyIter where
  chunks : List (List Char)
  hasCloseAttr : Bool
deriving DecidableEq

/-- What a WSGI application run amounts to once its interaction with
`start_response` (modelled separately) has finished: the final status and
headers it registered, the chunks it pushed through the returned write sink
(`data`), and the iterable it returned. An exception from the application
is an `Except.error`. -/
structure AppResult where
  status : List Char
  headers : List (List Char × List Char)
  data : List (List Char)
  chunks : PyIter

/-- The application callable, abstracted over the environment. -/
def App : Type := Env → Except PyExc AppResult

/-- The configuration options the modelled request path reads. -/
structure Config where
  application : AppRef App
  realIpHeader : Option (List Char)

/-- The `real_ip_header` override at the end of `parse_request`: when the
configured header key is present in the environment, its value replaces
`REMOTE_ADDR`. -/
def realIpOverride (cfg : Config) (e : Env) : Env :=
  match cfg.realIpHeader with
  | none => e
  | some rk =>
    match e rk with
    | none => e
    | some v => envSet kREMOTE_ADDR v e

/-- The pure tail of `parse_request`: everything after
`header_data = self.stream.read_until("\r\n\r\n")`. Splits on CRLF, unpacks
the request line (raising `ValueError` on fewer than three parts), builds
the environment on top of the base environment, parses headers, and applies
the `real_ip_header` override. -/
def parseRequestData (cfg : Config) (base : Env) (addr : Option (List Char))
    (headerData : List Char) : Except PyExc (List Char × Env) :=
  let lines := splitCRLF headerData
  let reqline := lines.headD []
  match splitSp2 reqline with
  | none => .error .valueError
  | some (method, path0, protocol) =>
    let e1 := envSet kREQUEST_METHOD (.str method) base
    let e2 := envSet kSERVER_PROTOCOL (.str protocol) e1
    let e3 := envSet kREMOTE_ADDR (.str (addr.getD [])) e2
    let pe : List Char × Env :=
      if '?' ∈ path0 then
        (path0.takeWhile fun c => c ≠ '?',
         envSet kQUERY_STRING (.str ((path0.dropWhile fun c => c ≠ '?').tail)) e3)
      else (path0, e3)
    let e4 := envSet kPATH_INFO (.str (urlunquote pe.1)) pe.2
    let e5 := envSet kWSGI_INPUT .stream e4
    let e6 := parseHeaders lines.tail e5
    .ok (reqline, realIpOverride cfg e6)

/-- `parse_request` from the source: read the header block through the first
CRLFCRLF (`ValueError` propagating on failure), then process it. The mutated
stream is returned alongside the result in either case. -/
def parse_request (cfg : Config) (base : Env) (addr : Option (List Char))
    (s : IOStream) : Except PyExc (List Char × Env) × IOStream :=
  match read_until crlfcrlf s with
  | (.error e, s') => (.error e, s')
  | (.ok headerData, s') => (parseRequestData cfg base addr headerData, s')

/-! ### The response driver -/

/-- Per-request worker state: the active stream and the `headers_sent`
flag. -/
structure WState where
  stream : IOStream
  headers_sent : Bool
deriving DecidableEq

/-- The byte block `send_headers` produces: status line, `Date` header,
application headers whose lowercased name is neither `connection` nor
`date`, then `Connection: close` and a blank line. -/
def headerBytes (now : GmTime) (status : List Char)
    (headers : List (List Char × List Char)) : List Char :=
  "HTTP/1.0 ".data ++ status ++ crlf ++
  "Date: ".data ++ http_date now ++ crlf ++
  ((headers.filter fun h =>
      ¬ (pyLower h.1 = "connection".data ∨ pyLower h.1 = "date".data)).map
    fun h => h.1 ++ ": ".data ++ h.2 ++ crlf).flatten ++
  "Connection: close".data ++ crlf ++ crlf

/-- `send_headers` from the source: when the headers have not been sent,
write the status line, the `Date` header, the filtered application headers,
`Connection: close` and a blank line, mark the headers sent, and flush. -/
def send_headers (now : GmTime) (status : List Char)
    (headers : List (List Char × List Char)) (w : WState) : WState :=
  if w.headers_sent then w
  else
    let s1 := iowrite w.stream ("HTTP/1.0 ".data ++ status ++ crlf)
    let s2 := iowrite s1 ("Date: ".data ++ http_date now ++ crlf)
    let s3 := headers.foldl (fun st h =>
      if pyLower h.1 = "connection".data ∨ pyLower h.1 = "date".data then st
      else iowrite st (h.1 ++ ": ".data ++ h.2 ++ crlf)) s2
    let s4 := iowrite s3 ("Connection: close".data ++ crlf)
    let s5 := iowrite s4 crlf
    { stream := ioflush s5, headers_sent := true }

/-- One iteration of the chunk loop in `send_response`: emit headers if not
yet sent, write the chunk, extend the running length. -/
def respStep (now : GmTime) (status : List Char)
    (headers : List (List Char × List Char)) (acc : WState × Nat)
    (chunk : List Char) : WState × Nat :=
  let w := if acc.1.headers_sent then acc.1 else send_headers now status headers acc.1
  ({ w with stream := iowrite w.stream chunk }, acc.2 + chunk.length)

/-- The result of `send_response`: the final worker state, the byte count,
and the list of iterables whose `close()` was invoked. -/
structure SendResult where
  w : WState
  length : Nat
  closedIterables : List PyIter
deriving DecidableEq

/-- `send_response` from the source. The statement
`for chunks in [data, chunks, [""]]` rebinds the name `chunks`; after the
loop that name denotes the final element `[""]` (a plain list, which has no
`close` attribute), and `if hasattr(chunks, "close"): chunks.close()` is
evaluated against it. -/
def send_response (now : GmTime) (status : List Char)
    (headers : List (List Char × List Char)) (chunks : PyIter)
    (data : List (List Char)) (w : WState) : SendResult :=
  let iterables : List PyIter := [⟨data, false⟩, chunks, ⟨[[]], false⟩]
  let acc := iterables.foldl
    (fun acc it => it.chunks.foldl (respStep now status headers) acc) (w, 0)
  let chunksAfterLoop := iterables.getLastD ⟨[], false⟩
  { w := acc.1, length := acc.2,
    closedIterables := if chunksAfterLoop.hasCloseAttr then [chunksAfterLoop] else [] }

/-- `start_response` as handed to the application by `execute_request`:
the recorded response parameters (slots 0 and 1 of the `response` list)
and the pre-body chunk list (`data`, slot 2). -/
structure Response where
  status : Option (List Char)
  headers : List (List Char × List Char)
  data : List (List Char)

/-- An `exc_info` triple, kept abstract. -/
structure ExcTriple where
  etype : Nat
  evalue : Nat
  etraceback : Nat
deriving DecidableEq

/-- The write sink `start_response` returns: `data.append`. -/
def writeSink (chunk : List Char) (d : List (List Char)) : List (List Char) :=
  d ++ [chunk]

/-- The `start_response` closure from `execute_request`: when `exc_info` is
given and headers are already sent, re-raise the triple; otherwise record
`status` and `response_headers` over any previous values (keeping `data`)
and return the write sink. -/
def start_response (headers_sent : Bool) (resp : Response) (status : List Char)
    (response_headers : List (List Char × List Char)) (exc_info : Option ExcTriple) :
    Except ExcTriple (Response × (List Char → List (List Char) → List (List Char))) :=
  match exc_info with
  | some t =>
    if headers_sent then .error t
    else .ok ({ resp with status := some status, headers := response_headers }, writeSink)
  | none => .ok ({ resp with status := some status, headers := response_headers }, writeSink)

/-- `execute_request` (abstracted over the application's interaction with
`start_response`, which `start_response` above models): run the application,
then drive `send_response`, returning the status and byte count. -/
def execute_request (now : GmTime) (app : App) (env : Env) (w : WState) :
    Except PyExc (WState × List Char × Nat) :=
  match app env with
  | .error e => .error e
  | .ok r =>
    let sr := send_response now r.status r.headers r.chunks r.data w
    .ok (sr.w, r.status, sr.length)

/-- `handle_request` from the source: wrap the connection in a fresh
stream with `headers_sent = False`, parse, execute, close the stream.
Returns the final socket and the outcome; an exception leaves the socket in
whatever state the failing step produced. -/
def handle_request (now : GmTime) (cfg : Config) (base : Env) (app : App)
    (conn : Socket) (addr : Option (List Char)) : Socket × Except PyExc Unit :=
  let w : WState := { stream := ⟨conn, [], []⟩, headers_sent := false }
  match parse_request cfg base addr w.stream with
  | (.error e, s1) => (s1.sock, .error e)
  | (.ok (_reqline, env), s1) =>
    match execute_request now app env { stream := s1, headers_sent := false } with
    | .error e => (s1.sock, .error e)
    | .ok (w', _status, _len) => ((ioclose w'.stream).sock, .ok ())

/-- Worker counters (`self.requests`, `self.errors`). -/
structure WorkerCounters where
  requests : Nat
  errors : Nat
deriving DecidableEq

/-- The outcome of one accepted connection in `HornedWorkerProcess.run`:
either the loop continues with updated counters, or an uncaught exception
terminates the worker process. In both cases the connection socket has been
closed by the `finally` clause. -/
inductive StepOutcome where
  | continued (c : WorkerCounters) (conn : Socket)
  | terminated (e : PyExc) (c : WorkerCounters) (conn : Socket)
deriving DecidableEq

/-- One iteration of the worker accept loop after a connection was accepted:
`handle_request` inside `try`, `self.requests += 1` on success,
`except socket.error` incrementing `self.errors`, and a `finally` that
closes the connection. Any other exception propagates out of `run`,
terminating the worker process. -/
def runStep (now : GmTime) (cfg : Config) (base : Env) (app : App)
    (c : WorkerCounters) (conn : Socket) (addr : Option (List Char)) : StepOutcome :=
  let r := handle_request now cfg base app conn addr
  let connClosed : Socket := { r.1 with opened := false }
  match r.2 with
  | .ok _ => .continued { c with requests := c.requests + 1 } connClosed
  | .error e =>
    if e.isSocketError then .continued { c with errors := c.errors + 1 } connClosed
    else .terminated e c connClosed

/-! ### Worker construction (`HornedWorkerProcess.__init__`) -/

/-- The attribute names the class `HornedWorkerProcess` defines (its
methods), from the source. -/
def hwpClassAttrs : List (List Char) :=
  ["__init__".data, "run".data, "die_gracefully".data, "die_immediately".data,
   "handle_request".data, "parse_request".data, "execute_request".data,
   "send_headers".data, "send_response".data]

/-- The instance attributes assigned before the line
`self.access_log = self.get("access_log")` executes. -/
def hwpInstanceAttrs : List (List Char) :=
  ["sock".data, "config".data, "app".data]

/-- Python attribute lookup on `self` at that point: instance dict, then
class dict (then `object`, which defines none of these). -/
def hwpHasAttr (n : List Char) : Bool :=
  (hwpInstanceAttrs ++ hwpClassAttrs).contains n

/-- The successfully constructed worker (never reached, since `__init__`
raises before completing). -/
structure WorkerInit where
  app : App

/-- `HornedWorkerProcess.__init__` up to its first attribute error:
resolve the application (importing a dotted name through the given
`get_app`, whose import machinery stays abstract), then evaluate
`self.get("access_log")`, which is an `AttributeError` unless `self` has a
`get` attribute. -/
def hwpInit (get_app : List Char → Except PyExc App) (cfg : Config) :
    Except PyExc WorkerInit :=
  match (match cfg.application with
         | .callable f => Except.ok f
         | .dotted n => get_app n) with
  | .error e => .error e
  | .ok f =>
    if hwpHasAttr "get".data then .ok ⟨f⟩
    else .error .attributeError

/-! ### Claim C1 -/

theorem hwp_no_get_attr : hwpHasAttr ['g', 'e', 't'] = false := by decide

/-- C1: the claim states that constructing a `HornedWorkerProcess` succeeds
without raising because `self.get("access_log")` resolves to a method.
In fact the class defines no `get` attribute, so for every configuration
whose application resolves, `__init__` raises `AttributeError` (and every
configuration raises some exception), so no forked worker reaches its
accept loop. -/
theorem c1_init_raises_attribute_error
    (get_app : List Char → Except PyExc App) (cfg : Config) (f : App) :
    hwpInit get_app { cfg with application := .callable f } = .error .attributeError ∧
    ∃ e, hwpInit get_app cfg = .error e := by
  constructor
  · simp [hwpInit, hwp_no_get_attr]
  · cases cfg with
    | mk app rip =>
      cases app with
      | callable f' => exact ⟨.attributeError, by simp [hwpInit, hwp_no_get_attr]⟩
      | dotted n =>
        cases hg : get_app n with
        | error e => exact ⟨e, by simp [hwpInit, hg]⟩
        | ok f' => exact ⟨.attributeError, by simp [hwpInit, hg, hwp_no_get_attr]⟩

/-! ### Claim C3 -/

/-- C3: the claim states that the response driver invokes the returned
iterable's `close()` exactly once. In fact the loop variable of
`for chunks in [data, chunks, [""]]` shadows the application iterable, so
the final `hasattr(chunks, "close")` test sees the trailing `[""]` list and
no iterable's `close()` is ever invoked, whatever the application returned. -/
theorem c3_close_never_invoked (now : GmTime) (status : List Char)
    (headers : List (List Char × List Char)) (chunks : PyIter)
    (data : List (List Char)) (w : WState) :
    (send_response now status headers chunks data w).closedIterables = [] := rfl

/-! ### Claim C10 -/

/-- C10 counterexample: on a stream whose socket is open with one buffered
byte, `close()` flushes that byte but the underlying socket remains open,
contradicting the claim that `close()` closes the underlying socket. -/
theorem c10_close_does_not_close_socket :
    (ioclose ⟨⟨[], true, []⟩, [], ['x']⟩).sock.sent = ['x'] ∧
    ¬ ((ioclose ⟨⟨[], true, []⟩, [], ['x']⟩).sock.opened = false) := by decide

/-- C10 amended: calling `close()` on the buffered stream flushes the entire
write accumulator to the peer and clears it; it performs no operation on the
underlying socket (in particular it does not close it — the worker loop's
`finally` clause closes the connection separately). -/
theorem c10_close_flushes_only (s : IOStream) :
    ioclose s = ⟨⟨s.sock.sent ++ s.write_buffer, s.sock.opened, s.sock.incoming⟩,
                 s.read_buffer, []⟩ := rfl

/-! ### Claim C8 -/

/-- C8: `start_response` with non-null `exc_info` re-raises the triple when
headers have been sent; otherwise it does not raise and the supplied status
and headers replace the recorded response parameters; every successful call
returns the write sink, which appends body bytes to the pre-body data
chunks. -/
theorem c8_start_response_contract (hs : Bool) (resp : Response) (status : List Char)
    (hdrs : List (List Char × List Char)) (exc : Option ExcTriple) :
    (∀ t, hs = true → exc = some t →
      start_response hs resp status hdrs exc = .error t) ∧
    (hs = false → start_response hs resp status hdrs exc =
      .ok ({ resp with status := some status, headers := hdrs }, writeSink)) ∧
    (exc = none → start_response hs resp status hdrs exc =
      .ok ({ resp with status := some status, headers := hdrs }, writeSink)) ∧
    (∀ chunk d, writeSink chunk d = d ++ [chunk]) := by
  refine ⟨?_, ?_, ?_, fun _ _ => rfl⟩
  · intro t hhs hexc
    subst hhs
    subst hexc
    rfl
  · intro hhs
    subst hhs
    cases exc <;> rfl
  · intro hexc
    subst hexc
    rfl

/-- C8 witness at concrete inputs: after headers are sent the triple is
re-raised; before, the parameters are replaced; the sink appends. -/
theorem c8_start_response_contract_witness :
    start_response true ⟨none, [], []⟩ "500 Error".data [] (some ⟨1, 2, 3⟩) =
      .error ⟨1, 2, 3⟩ ∧
    start_response false ⟨some "200 OK".data, [], []⟩ "500 Error".data []
        (some ⟨1, 2, 3⟩) =
      .ok (⟨some "500 Error".data, [], []⟩, writeSink) ∧
    writeSink ['h', 'i'] [] = [['h', 'i']] := by
  refine ⟨(c8_start_response_contract true ⟨none, [], []⟩ "500 Error".data []
            (some ⟨1, 2, 3⟩)).1 ⟨1, 2, 3⟩ rfl rfl,
          (c8_start_response_contract false ⟨some "200 OK".data, [], []⟩
            "500 Error".data [] (some ⟨1, 2, 3⟩)).2.1 rfl,
          (c8_start_response_contract false ⟨none, [], []⟩ "500 Error".data []
            (some ⟨1, 2, 3⟩)).2.2.2 ['h', 'i'] []⟩

/-! ### Claim C2 -/

/-- C2: the claim states that a request whose parse fails (for example the
bare line `GARBAGE`) leaves the worker running with its error counter
incremented by one. Evaluating the worker loop body on exactly that input
shows the connection is indeed closed with no response bytes written, but
the `ValueError` from `parse_request` is not a `socket.error`, so the
`except` clause does not catch it: the error counter stays at 0 and the
exception terminates the worker process. -/
theorem c2_malformed_request_kills_worker :
    runStep ⟨1970, 1, 1, 0, 0, 0, 3⟩ ⟨.callable fun _ => .error .valueError, none⟩
        (fun _ => none) (fun _ => .ok ⟨[], [], [], ⟨[], false⟩⟩)
        ⟨0, 0⟩ ⟨[], true, ["GARBAGE\r\n\r\n".data]⟩ none =
      .terminated .valueError ⟨0, 0⟩ ⟨[], false, []⟩ := by decide

/-! ### Claim C4 -/

/-- C4 counterexample: the claim states that `%XX` escapes decode for any
mix of upper and lower case, so `%aB` would decode to the byte 0xAB (= 171).
In fact the `charfromhex` table only has all-lowercase and all-uppercase
keys, so `urlunquote "%aB"` emits the escape literally. -/
theorem c4_mixed_case_escape_not_decoded :
    urlunquote ['%', 'a', 'B'] = ['%', 'a', 'B'] ∧
    urlunquote ['%', 'a', 'B'] ≠ [Char.ofNat 171] := by decide

/-- C4 amended: `urlunquote` replaces each `%XX` escape whose two following
characters are the all-lowercase or the all-uppercase hex rendering of a
byte (decimal digits belong to both, so `%2F`, `%2f`, `%ab`, `%AB` all
decode) by the single byte with that hex value; an escape mixing a
lowercase and an uppercase hex letter (such as `%aB`) is emitted literally,
as are invalid or truncated escapes (`%GZ`, a trailing `%A`), as `%`
followed by the offending characters. -/
theorem c4_urlunquote_amended (pre rest short : List Char) (c1 c2 : Char)
    (hpre : '%' ∉ pre) :
    (validEscapePair c1 c2 = true →
      ∃ b : Nat, b < 256 ∧ charfromhex [c1, c2] = some (Char.ofNat b) ∧
        ([c1, c2] = hex2 hexdigitsLower b ∨ [c1, c2] = hex2 hexdigitsUpper b) ∧
        urlunquote (pre ++ '%' :: c1 :: c2 :: rest) =
          pre ++ Char.ofNat b :: urlunquote rest) ∧
    (validEscapePair c1 c2 = false →
      urlunquote (pre ++ '%' :: c1 :: c2 :: rest) =
        pre ++ '%' :: c1 :: c2 :: urlunquote rest) ∧
    (short.length ≤ 1 → '%' ∉ short →
      urlunquote (pre ++ '%' :: short) = pre ++ '%' :: short) ∧
    urlunquote pre = pre := by
  refine ⟨?_, ?_, ?_, urlunquote_no_escape hpre⟩
  · intro hv
    rcases validEscapePair_exists hv with ⟨b, hb, hcode⟩
    have hch : charfromhex [c1, c2] = some (Char.ofNat b) := by
      rcases hcode with hc | hc
      · rw [hc]
        exact (charfromhex_hex2 hb).1
      · rw [hc]
        exact (charfromhex_hex2 hb).2
    refine ⟨b, hb, hch, hcode, ?_⟩
    rw [urlunquote_step hpre]
    have ht : (c1 :: c2 :: rest).take 2 = [c1, c2] := rfl
    have hd : (c1 :: c2 :: rest).drop 2 = rest := rfl
    rw [ht, hd, hch]
    simp
  · intro hv
    have hch : charfromhex [c1, c2] = none := charfromhex_eq_none hv
    rw [urlunquote_step hpre]
    have ht : (c1 :: c2 :: rest).take 2 = [c1, c2] := rfl
    have hd : (c1 :: c2 :: rest).drop 2 = rest := rfl
    rw [ht, hd, hch]
    simp
  · intro hlen hshort
    have hch : charfromhex (short.take 2) = none := by
      cases h : charfromhex (short.take 2) with
      | none => rfl
      | some c =>
        have := charfromhex_some_length h
        have : (short.take 2).length ≤ 1 := by
          rw [List.length_take]
          omega
        omega
    rw [urlunquote_step hpre]
    have ht : short.take 2 = short := List.take_of_length_le (by omega)
    have hd : short.drop 2 = [] := List.drop_eq_nil_of_le (by omega)
    rw [hd, hch, ht]
    have hnil : urlunquote [] = [] := rfl
    rw [hnil]
    simp

/-- C4 witness: `%2f` (both lowercase) decodes to `/` (byte 0x2F = 47) after
a literal prefix, and a truncated `%A` at end of string is preserved. -/
theorem c4_urlunquote_amended_witness :
    validEscapePair '2' 'f' = true ∧
    (∃ b : Nat, b < 256 ∧ charfromhex ['2', 'f'] = some (Char.ofNat b) ∧
      (['2', 'f'] = hex2 hexdigitsLower b ∨ ['2', 'f'] = hex2 hexdigitsUpper b) ∧
      urlunquote ("/a".data ++ '%' :: '2' :: 'f' :: "x".data) =
        "/a".data ++ Char.ofNat b :: urlunquote "x".data) ∧
    urlunquote ("/a".data ++ '%' :: ['A']) = "/a".data ++ '%' :: ['A'] := by
  refine ⟨by decide, ?_, ?_⟩
  · exact (c4_urlunquote_amended "/a".data "x".data ['A'] '2' 'f' (by decide)).1
      (by decide)
  · exact (c4_urlunquote_amended "/a".data "x".data ['A'] '2' 'f'
      (by decide)).2.2.1 (by decide) (by decide)

/-! ### Claim C9 -/

theorem readUntilLoop_found {delim buf : List Char} {inc : List (List Char)}
    (h : (findSub delim buf).isSome) : readUntilLoop delim buf inc = (buf, inc) := by
  rw [readUntilLoop.eq_def]
  show (if (findSub delim buf).isSome = true then (buf, inc)
        else match inc with
             | [] => (buf, [])
             | c :: rest => if c = [] then (buf, rest)
                            else readUntilLoop delim (buf ++ c) rest) = (buf, inc)
  rw [if_pos h]

theorem readUntilLoop_nil {delim buf : List Char}
    (h : ¬ (findSub delim buf).isSome) : readUntilLoop delim buf [] = (buf, []) := by
  rw [readUntilLoop.eq_def]
  show (if (findSub delim buf).isSome = true then (buf, ([] : List (List Char)))
        else (buf, [])) = (buf, [])
  rw [if_neg h]

theorem readUntilLoop_cons {delim buf c : List Char} {rest : List (List Char)}
    (h : ¬ (findSub delim buf).isSome) (hc : c ≠ []) :
    readUntilLoop delim buf (c :: rest) = readUntilLoop delim (buf ++ c) rest := by
  rw [readUntilLoop.eq_def]
  show (if (findSub delim buf).isSome = true then (buf, c :: rest)
        else if c = [] then (buf, rest) else readUntilLoop delim (buf ++ c) rest) =
      readUntilLoop delim (buf ++ c) rest
  rw [if_neg h, if_neg hc]

/-- The `recv` loop preserves the byte stream (buffer plus pending chunks),
only grows the buffer, and stops either with the delimiter in the buffer or
at EOF with everything received. -/
theorem readUntilLoop_spec (delim : List Char) :
    ∀ (inc : List (List Char)) (buf : List Char), (∀ c ∈ inc, c ≠ []) →
      buf ++ inc.flatten =
        (readUntilLoop delim buf inc).1 ++ (readUntilLoop delim buf inc).2.flatten ∧
      buf <+: (readUntilLoop delim buf inc).1 ∧
      ((findSub delim (readUntilLoop delim buf inc).1).isSome ∨
        ((readUntilLoop delim buf inc).2 = [] ∧
          (readUntilLoop delim buf inc).1 = buf ++ inc.flatten)) := by
  intro inc
  induction inc with
  | nil =>
    intro buf hne
    by_cases h : (findSub delim buf).isSome
    · rw [readUntilLoop_found h]
      exact ⟨by simp, List.prefix_refl _, Or.inl h⟩
    · rw [readUntilLoop_nil h]
      exact ⟨by simp, List.prefix_refl _, Or.inr ⟨rfl, by simp⟩⟩
  | cons c rest ih =>
    intro buf hne
    by_cases h : (findSub delim buf).isSome
    · rw [readUntilLoop_found h]
      exact ⟨by simp, List.prefix_refl _, Or.inl h⟩
    · have hc : c ≠ [] := hne c (List.mem_cons_self c rest)
      rw [readUntilLoop_cons h hc]
      rcases ih (buf ++ c) (fun d hd => hne d (List.mem_cons_of_mem c hd)) with
        ⟨hcons, hpre, hdisj⟩
      refine ⟨?_, ?_, ?_⟩
      · rw [List.flatten_cons, ← List.append_assoc]
        exact hcons
      · exact (List.prefix_append buf c).trans hpre
      · rcases hdisj with hs | ⟨h1, h2⟩
        · exact Or.inl hs
        · refine Or.inr ⟨h1, ?_⟩
          rw [h2, List.flatten_cons, ← List.append_assoc]

/-- C9: `read_until(delim)` returns the prefix of the buffered-plus-received
bytes through and including the first occurrence of `delim` (retaining the
bytes after it for later reads), and raises `ValueError` exactly when the
peer closes before `delim` appears or the first occurrence is at index
zero. `findSub` is first-occurrence search (last conjunct). -/
theorem c9_read_until_contract (delim : List Char) (s : IOStream)
    (hd : delim ≠ []) (hin : ∀ c ∈ s.sock.incoming, c ≠ []) :
    (findSub delim (s.read_buffer ++ s.sock.incoming.flatten) = none →
      (read_until delim s).1 = .error .valueError) ∧
    (findSub delim (s.read_buffer ++ s.sock.incoming.flatten) = some 0 →
      (read_until delim s).1 = .error .valueError) ∧
    (∀ i, findSub delim (s.read_buffer ++ s.sock.incoming.flatten) = some i → 0 < i →
      (read_until delim s).1 =
        .ok ((s.read_buffer ++ s.sock.incoming.flatten).take (i + delim.length)) ∧
      (read_until delim s).2.read_buffer ++
          (read_until delim s).2.sock.incoming.flatten =
        (s.read_buffer ++ s.sock.incoming.flatten).drop (i + delim.length)) ∧
    (∀ i, findSub delim (s.read_buffer ++ s.sock.incoming.flatten) = some i →
      delim <+: (s.read_buffer ++ s.sock.incoming.flatten).drop i ∧
      ∀ j < i, ¬ delim <+: (s.read_buffer ++ s.sock.incoming.flatten).drop j) := by
  rcases readUntilLoop_spec delim s.sock.incoming s.read_buffer hin with
    ⟨hcons, hbufpre, hdisj⟩
  have hr1pre : (readUntilLoop delim s.read_buffer s.sock.incoming).1 <+:
      s.read_buffer ++ s.sock.incoming.flatten :=
    ⟨(readUntilLoop delim s.read_buffer s.sock.incoming).2.flatten, hcons.symm⟩
  refine ⟨?_, ?_, ?_, fun i hi => findSub_eq_some_iff.mp hi⟩
  · intro htot
    cases h1 : findSub delim (readUntilLoop delim s.read_buffer s.sock.incoming).1 with
    | none => simp [read_until, h1]
    | some j =>
      rw [findSub_extend hr1pre h1] at htot
      cases htot
  · intro htot
    cases h1 : findSub delim (readUntilLoop delim s.read_buffer s.sock.incoming).1 with
    | none => simp [read_until, h1]
    | some j =>
      have := findSub_extend hr1pre h1
      rw [htot] at this
      injection this with hj
      simp [read_until, h1, hj]
  · intro i htot hi
    have h1 : findSub delim (readUntilLoop delim s.read_buffer s.sock.incoming).1 = some i := by
      rcases hdisj with hs | ⟨-, h2⟩
      · rcases Option.isSome_iff_exists.mp hs with ⟨j, hj⟩
        have := findSub_extend hr1pre hj
        rw [htot] at this
        injection this with hj'
        rw [hj]
        exact congrArg some hj'.symm
      · rw [h2, htot]
    have hk : i + delim.length ≤
        (readUntilLoop delim s.read_buffer s.sock.incoming).1.length :=
      findSub_some_le_length h1
    have hne0 : ¬ i = 0 := by omega
    have hrw : read_until delim s =
        (.ok ((readUntilLoop delim s.read_buffer s.sock.incoming).1.take
            (i + delim.length)),
         { sock := { s.sock with
              incoming := (readUntilLoop delim s.read_buffer s.sock.incoming).2 },
           read_buffer := (readUntilLoop delim s.read_buffer s.sock.incoming).1.drop
            (i + delim.length),
           write_buffer := s.write_buffer }) := by
      simp only [read_until, h1, if_neg hne0]
    have htake : (readUntilLoop delim s.read_buffer s.sock.incoming).1.take
        (i + delim.length) =
        (s.read_buffer ++ s.sock.incoming.flatten).take (i + delim.length) := by
      rw [hcons, List.take_append_eq_append_take]
      have hz : i + delim.length -
          (readUntilLoop delim s.read_buffer s.sock.incoming).1.length = 0 := by omega
      rw [hz]
      simp
    have hdrop : (readUntilLoop delim s.read_buffer s.sock.incoming).1.drop
          (i + delim.length) ++
          (readUntilLoop delim s.read_buffer s.sock.incoming).2.flatten =
        (s.read_buffer ++ s.sock.incoming.flatten).drop (i + delim.length) := by
      rw [hcons, List.drop_append_eq_append_drop]
      have hz : i + delim.length -
          (readUntilLoop delim s.read_buffer s.sock.incoming).1.length = 0 := by omega
      rw [hz]
      simp
    constructor
    · rw [hrw]
      exact congrArg Except.ok htake
    · rw [hrw]
      exact hdrop

/-- C9 witness: on a buffered `x` with chunks `ab\r` and `\nc` arriving, the
delimiter `\r\n` (spanning the chunk boundary, first occurrence at index 3)
yields `xab\r\n` and retains `c`. -/
theorem c9_read_until_contract_witness :
    (read_until "\r\n".data ⟨⟨[], true, [['a', 'b', '\r'], ['\n', 'c']]⟩, ['x'], []⟩).1 =
      .ok ((['x'] ++ [['a', 'b', '\r'], ['\n', 'c']].flatten).take
        (3 + "\r\n".data.length)) ∧
    (read_until "\r\n".data
        ⟨⟨[], true, [['a', 'b', '\r'], ['\n', 'c']]⟩, ['x'], []⟩).2.read_buffer ++
      (read_until "\r\n".data
        ⟨⟨[], true, [['a', 'b', '\r'], ['\n', 'c']]⟩, ['x'], []⟩).2.sock.incoming.flatten =
      (['x'] ++ [['a', 'b', '\r'], ['\n', 'c']].flatten).drop (3 + "\r\n".data.length) :=
  (c9_read_until_contract "\r\n".data
      ⟨⟨[], true, [['a', 'b', '\r'], ['\n', 'c']]⟩, ['x'], []⟩
      (by decide) (by decide)).2.2.1 3 (by decide) (by decide)

/-! ### Claims C6 and C7: header emission -/

/-- The header-filter loop of `send_headers` accumulates exactly the
rendered non-suppressed headers. -/
theorem fold_header_writes (headers : List (List Char × List Char)) :
    ∀ st : IOStream,
      headers.foldl (fun st h =>
          if pyLower h.1 = "connection".data ∨ pyLower h.1 = "date".data then st
          else iowrite st (h.1 ++ ": ".data ++ h.2 ++ crlf)) st =
        { st with write_buffer := st.write_buffer ++
            ((headers.filter fun h =>
                ¬ (pyLower h.1 = "connection".data ∨ pyLower h.1 = "date".data)).map
              fun h => h.1 ++ ": ".data ++ h.2 ++ crlf).flatten } := by
  induction headers with
  | nil => intro st; simp
  | cons q t ih =>
    intro st
    by_cases hc : pyLower q.1 = "connection".data ∨ pyLower q.1 = "date".data
    · have hpq : (decide ¬ (pyLower q.1 = "connection".data ∨
          pyLower q.1 = "date".data)) = false := by simp [hc]
      rw [List.foldl_cons, if_pos hc, ih]
      congr 1
      rw [List.filter_cons, hpq]
      simp
    · have hpq : (decide ¬ (pyLower q.1 = "connection".data ∨
          pyLower q.1 = "date".data)) = true := by simp [hc]
      rw [List.foldl_cons, if_neg hc, ih]
      rw [List.filter_cons, hpq]
      simp [iowrite, List.append_assoc]

/-- Effect of `send_headers` on a request whose headers are unsent: the
header block goes out on the socket (after any previously buffered bytes),
the write buffer is cleared, and the flag is set. -/
theorem send_headers_false {now : GmTime} {status : List Char}
    {headers : List (List Char × List Char)} {w : WState}
    (h : w.headers_sent = false) :
    send_headers now status headers w =
      { stream := ⟨⟨w.stream.sock.sent ++ w.stream.write_buffer ++
                      headerBytes now status headers,
                    w.stream.sock.opened, w.stream.sock.incoming⟩,
                   w.stream.read_buffer, []⟩,
        headers_sent := true } := by
  simp only [send_headers, h, Bool.false_eq_true, if_false]
  rw [fold_header_writes]
  simp [iowrite, ioflush, headerBytes, List.append_assoc]

/-- `send_headers` on a request whose headers were already sent does
nothing. -/
theorem send_headers_true {now : GmTime} {status : List Char}
    {headers : List (List Char × List Char)} {w : WState}
    (h : w.headers_sent = true) : send_headers now status headers w = w := by
  simp [send_headers, h]

/-- C7: for an unsent-headers state, the emitted block is, in order, the
status line `HTTP/1.0 <status>`, a `Date` header rendered by `http_date`,
each application header whose lowercased name is neither `connection` nor
`date`, then `Connection: close` and a blank line; the block is flushed to
the socket, and suppressed headers do not survive the filter. -/
theorem c7_header_block_layout (now : GmTime) (status : List Char)
    (headers : List (List Char × List Char)) (w : WState)
    (h : w.headers_sent = false) :
    (send_headers now status headers w).stream.sock.sent =
      w.stream.sock.sent ++ w.stream.write_buffer ++
        ("HTTP/1.0 ".data ++ status ++ crlf) ++
        ("Date: ".data ++ http_date now ++ crlf) ++
        ((headers.filter fun p =>
            ¬ (pyLower p.1 = "connection".data ∨ pyLower p.1 = "date".data)).map
          fun p => p.1 ++ ": ".data ++ p.2 ++ crlf).flatten ++
        ("Connection: close".data ++ crlf) ++ crlf ∧
    (send_headers now status headers w).stream.write_buffer = [] ∧
    (send_headers now status headers w).headers_sent = true ∧
    (∀ p ∈ headers, (pyLower p.1 = "connection".data ∨ pyLower p.1 = "date".data) →
      p ∉ headers.filter fun q =>
        ¬ (pyLower q.1 = "connection".data ∨ pyLower q.1 = "date".data)) := by
  rw [send_headers_false h]
  refine ⟨?_, rfl, rfl, ?_⟩
  · simp [headerBytes, List.append_assoc]
  · intro p hp hcond hmem
    rcases List.mem_filter.mp hmem with ⟨-, hkeep⟩
    simp only [decide_not, Bool.not_eq_true', decide_eq_false_iff_not] at hkeep
    exact hkeep hcond

/-- C7 witness: a concrete request state with unsent headers; the
application's own `Date` header is suppressed, `Content-Type` survives. -/
theorem c7_header_block_layout_witness :
    (send_headers ⟨2011, 5, 2, 3, 4, 5, 6⟩ "200 OK".data
        [("Date".data, "x".data), ("Content-Type".data, "text/plain".data)]
        ⟨⟨⟨[], true, []⟩, [], []⟩, false⟩).stream.sock.sent =
      [] ++ [] ++
        ("HTTP/1.0 ".data ++ "200 OK".data ++ crlf) ++
        ("Date: ".data ++ http_date ⟨2011, 5, 2, 3, 4, 5, 6⟩ ++ crlf) ++
        (([("Date".data, "x".data), ("Content-Type".data, "text/plain".data)].filter
            fun p => ¬ (pyLower p.1 = "connection".data ∨ pyLower p.1 = "date".data)).map
          fun p => p.1 ++ ": ".data ++ p.2 ++ crlf).flatten ++
        ("Connection: close".data ++ crlf) ++ crlf ∧
    (send_headers ⟨2011, 5, 2, 3, 4, 5, 6⟩ "200 OK".data
        [("Date".data, "x".data), ("Content-Type".data, "text/plain".data)]
        ⟨⟨⟨[], true, []⟩, [], []⟩, false⟩).headers_sent = true :=
  ⟨(c7_header_block_layout ⟨2011, 5, 2, 3, 4, 5, 6⟩ "200 OK".data
      [("Date".data, "x".data), ("Content-Type".data, "text/plain".data)]
      ⟨⟨⟨[], true, []⟩, [], []⟩, false⟩ rfl).1,
   (c7_header_block_layout ⟨2011, 5, 2, 3, 4, 5, 6⟩ "200 OK".data
      [("Date".data, "x".data), ("Content-Type".data, "text/plain".data)]
      ⟨⟨⟨[], true, []⟩, [], []⟩, false⟩ rfl).2.2.1⟩

/-- Chunk iterations after the headers are sent only append to the write
buffer and extend the length. -/
theorem respStep_fold_true (now : GmTime) (status : List Char)
    (headers : List (List Char × List Char)) :
    ∀ (cs : List (List Char)) (acc : WState × Nat), acc.1.headers_sent = true →
      cs.foldl (respStep now status headers) acc =
        ({ acc.1 with stream := { acc.1.stream with
              write_buffer := acc.1.stream.write_buffer ++ cs.flatten } },
         acc.2 + cs.flatten.length) := by
  intro cs
  induction cs with
  | nil =>
    intro acc h
    simp
  | cons c rest ih =>
    intro acc h
    rw [List.foldl_cons]
    have hstep : respStep now status headers acc c =
        ({ acc.1 with stream := iowrite acc.1.stream c }, acc.2 + c.length) := by
      simp [respStep, h]
    rw [hstep, ih _ (by exact h)]
    simp [iowrite, List.append_assoc]
    omega

/-- The first chunk of a response with unsent headers triggers exactly one
header emission; the rest of the chunks are appended after it. -/
theorem respStep_fold_false (now : GmTime) (status : List Char)
    (headers : List (List Char × List Char)) (cs : List (List Char))
    (hne : cs ≠ []) (acc : WState × Nat) (h : acc.1.headers_sent = false) :
    cs.foldl (respStep now status headers) acc =
      (⟨⟨⟨acc.1.stream.sock.sent ++ acc.1.stream.write_buffer ++
            headerBytes now status headers,
          acc.1.stream.sock.opened, acc.1.stream.sock.incoming⟩,
         acc.1.stream.read_buffer, cs.flatten⟩, true⟩,
       acc.2 + cs.flatten.length) := by
  cases cs with
  | nil => exact absurd rfl hne
  | cons c rest =>
    rw [List.foldl_cons]
    have hstep : respStep now status headers acc c =
        (⟨⟨⟨acc.1.stream.sock.sent ++ acc.1.stream.write_buffer ++
              headerBytes now status headers,
            acc.1.stream.sock.opened, acc.1.stream.sock.incoming⟩,
           acc.1.stream.read_buffer, c⟩, true⟩, acc.2 + c.length) := by
      simp [respStep, h, send_headers_false h, iowrite]
    rw [hstep, respStep_fold_true now status headers rest _ rfl]
    simp [List.append_assoc]
    omega

/-- C6: within a request, `headers_sent` goes from false to true and is
never reset (`send_headers` is the identity once it is true, and each chunk
step preserves it without touching the socket), the header block is flushed
to the socket exactly once, and every header byte is on the wire before any
body byte (the body chunks, including those of an empty body forced by the
trailing empty chunk, stay in the write buffer behind the flushed block). -/
theorem c6_headers_once_before_body (now : GmTime) (status : List Char)
    (headers : List (List Char × List Char)) (chunks : PyIter)
    (data : List (List Char)) (w : WState) (h : w.headers_sent = false) :
    (send_response now status headers chunks data w).w.headers_sent = true ∧
    (send_response now status headers chunks data w).w.stream.sock.sent =
      w.stream.sock.sent ++ w.stream.write_buffer ++ headerBytes now status headers ∧
    (send_response now status headers chunks data w).w.stream.write_buffer =
      data.flatten ++ chunks.chunks.flatten ∧
    (∀ st : WState, st.headers_sent = true → send_headers now status headers st = st) ∧
    (∀ (acc : WState × Nat) (c : List Char), acc.1.headers_sent = true →
      (respStep now status headers acc c).1.headers_sent = true ∧
      (respStep now status headers acc c).1.stream.sock.sent =
        acc.1.stream.sock.sent) := by
  have hcomb : (data ++ (chunks.chunks ++ [[]])).foldl
      (respStep now status headers) (w, 0) =
      ([[]] : List (List Char)).foldl (respStep now status headers)
        ((chunks.chunks).foldl (respStep now status headers)
          (data.foldl (respStep now status headers) (w, 0))) := by
    rw [List.foldl_append, List.foldl_append]
  have hne : data ++ (chunks.chunks ++ [[]]) ≠ [] := by simp
  have hfold := respStep_fold_false now status headers _ hne (w, 0) h
  have hsr : send_response now status headers chunks data w =
      { w := (((data ++ (chunks.chunks ++ [[]])).foldl
                (respStep now status headers) (w, 0))).1,
        length := (((data ++ (chunks.chunks ++ [[]])).foldl
                (respStep now status headers) (w, 0))).2,
        closedIterables := [] } := by
    rw [hcomb]
    rfl
  refine ⟨?_, ?_, ?_, fun st hs => send_headers_true hs, ?_⟩
  · rw [hsr, hfold]
  · rw [hsr, hfold]
  · rw [hsr, hfold]
    simp
  · intro acc c hacc
    constructor
    · simp [respStep, hacc]
    · simp [respStep, hacc, iowrite]

/-- C6 witness: an empty body (`data = []`, app iterable empty) still gets
its header block flushed, with an empty write buffer behind it. -/
theorem c6_headers_once_before_body_witness :
    (send_response ⟨2011, 5, 2, 3, 4, 5, 6⟩ "200 OK".data [] ⟨[], false⟩ []
        ⟨⟨⟨[], true, []⟩, [], []⟩, false⟩).w.headers_sent = true ∧
    (send_response ⟨2011, 5, 2, 3, 4, 5, 6⟩ "200 OK".data [] ⟨[], false⟩ []
        ⟨⟨⟨[], true, []⟩, [], []⟩, false⟩).w.stream.sock.sent =
      [] ++ [] ++ headerBytes ⟨2011, 5, 2, 3, 4, 5, 6⟩ "200 OK".data [] ∧
    (send_response ⟨2011, 5, 2, 3, 4, 5, 6⟩ "200 OK".data [] ⟨[], false⟩ []
        ⟨⟨⟨[], true, []⟩, [], []⟩, false⟩).w.stream.write_buffer =
      List.flatten [] ++ List.flatten [] :=
  ⟨(c6_headers_once_before_body ⟨2011, 5, 2, 3, 4, 5, 6⟩ "200 OK".data []
      ⟨[], false⟩ [] ⟨⟨⟨[], true, []⟩, [], []⟩, false⟩ rfl).1,
   (c6_headers_once_before_body ⟨2011, 5, 2, 3, 4, 5, 6⟩ "200 OK".data []
      ⟨[], false⟩ [] ⟨⟨⟨[], true, []⟩, [], []⟩, false⟩ rfl).2.1,
   (c6_headers_once_before_body ⟨2011, 5, 2, 3, 4, 5, 6⟩ "200 OK".data []
      ⟨[], false⟩ [] ⟨⟨⟨[], true, []⟩, [], []⟩, false⟩ rfl).2.2.1⟩

/-! ### Claim C5: parsing a well-formed request -/

/-- A raw header line `name:rawvalue`. -/
def renderHeaderLine (p : List Char × List Char) : List Char := p.1 ++ ':' :: p.2

/-- The request line `method SP target SP protocol`. -/
def renderReqLine (method target protocol : List Char) : List Char :=
  method ++ ' ' :: (target ++ ' ' :: protocol)

/-- The header lines each followed by CRLF, then the empty line. -/
def renderTail (hs : List (List Char × List Char)) : List Char :=
  (hs.map fun p => renderHeaderLine p ++ crlf).flatten ++ crlf

/-- A whole well-formed header block: request line, CRLF, header lines,
terminated by CRLFCRLF. -/
def renderBlock (reqline : List Char) (hs : List (List Char × List Char)) : List Char :=
  reqline ++ crlf ++ renderTail hs

theorem renderTail_length_ge {hs : List (List Char × List Char)} :
    2 ≤ (renderTail hs).length := by
  simp [renderTail, crlf]

theorem findSub_crlfcrlf_append {l r : List Char} (hl : '\r' ∉ l) :
    findSub crlfcrlf (l ++ r) = (findSub crlfcrlf r).map (· + l.length) :=
  findSub_append_of_head_not_mem hl

theorem findSub_crlfcrlf_renderTail :
    ∀ (hs : List (List Char × List Char)), (∀ p ∈ hs, '\r' ∉ p.1 ∧ '\r' ∉ p.2) →
      ∀ extra : List Char,
        findSub crlfcrlf ('\r' :: '\n' :: (renderTail hs ++ extra)) =
          some ((renderTail hs).length - 2) := by
  intro hs
  induction hs with
  | nil =>
    intro hcond extra
    have h0 : crlfcrlf <+: '\r' :: '\n' :: (renderTail [] ++ extra) := by
      refine ⟨extra, ?_⟩
      simp [crlfcrlf, renderTail, crlf]
    rw [findSub, if_pos h0]
    simp [renderTail, crlf]
  | cons p t ih =>
    intro hcond extra
    have hp := hcond p (List.mem_cons_self p t)
    have hLne : renderHeaderLine p ≠ [] := by
      simp only [renderHeaderLine]
      intro hnil
      rcases List.append_eq_nil.mp hnil with ⟨-, h2⟩
      cases h2
    have hLcr : '\r' ∉ renderHeaderLine p := by
      simp only [renderHeaderLine, List.mem_append, List.mem_cons]
      rintro (h | h | h)
      · exact hp.1 h
      · cases h
      · exact hp.2 h
    have hshape : renderTail (p :: t) ++ extra =
        renderHeaderLine p ++ ('\r' :: '\n' :: (renderTail t ++ extra)) := by
      simp [renderTail, crlf, List.append_assoc]
    rw [hshape, crlf_prepend_block hLne hLcr, findSub_crlfcrlf_append hLcr,
        ih (fun q hq => hcond q (List.mem_cons_of_mem p hq)) extra]
    have hge := @renderTail_length_ge t
    have hlen : (renderTail (p :: t)).length =
        (renderHeaderLine p).length + 2 + (renderTail t).length := by
      simp [renderTail, crlf]
      omega
    simp only [Option.map_some']
    congr 1
    omega

/-- The first CRLFCRLF in a rendered block (with anything appended) sits at
its end, four bytes before the end of the block. -/
theorem findSub_crlfcrlf_renderBlock {r : List Char} (hr : '\r' ∉ r)
    {hs : List (List Char × List Char)}
    (hcond : ∀ p ∈ hs, '\r' ∉ p.1 ∧ '\r' ∉ p.2) (extra : List Char) :
    findSub crlfcrlf (renderBlock r hs ++ extra) =
      some (r.length + (renderTail hs).length - 2) := by
  have hshape : renderBlock r hs ++ extra =
      r ++ ('\r' :: '\n' :: (renderTail hs ++ extra)) := by
    simp [renderBlock, crlf, List.append_assoc]
  rw [hshape, findSub_crlfcrlf_append hr,
      findSub_crlfcrlf_renderTail hs hcond extra]
  have hge := @renderTail_length_ge hs
  simp only [Option.map_some']
  congr 1
  omega

theorem splitCRLF_renderTail :
    ∀ (hs : List (List Char × List Char)), (∀ p ∈ hs, '\r' ∉ p.1 ∧ '\r' ∉ p.2) →
      splitCRLF (renderTail hs) = hs.map renderHeaderLine ++ [[], []] := by
  intro hs
  induction hs with
  | nil => intro hcond; rfl
  | cons p t ih =>
    intro hcond
    have hp := hcond p (List.mem_cons_self p t)
    have hLcr : '\r' ∉ renderHeaderLine p := by
      simp only [renderHeaderLine, List.mem_append, List.mem_cons]
      rintro (h | h | h)
      · exact hp.1 h
      · cases h
      · exact hp.2 h
    have hshape : renderTail (p :: t) =
        renderHeaderLine p ++ '\r' :: '\n' :: renderTail t := by
      simp [renderTail, crlf, List.append_assoc]
    rw [hshape, splitCRLF_append hLcr,
        ih fun q hq => hcond q (List.mem_cons_of_mem p hq)]
    rfl

theorem splitCRLF_renderBlock {r : List Char} (hr : '\r' ∉ r)
    {hs : List (List Char × List Char)}
    (hcond : ∀ p ∈ hs, '\r' ∉ p.1 ∧ '\r' ∉ p.2) :
    splitCRLF (renderBlock r hs) = r :: (hs.map renderHeaderLine ++ [[], []]) := by
  have hshape : renderBlock r hs = r ++ '\r' :: '\n' :: renderTail hs := by
    simp [renderBlock, crlf, List.append_assoc]
  rw [hshape, splitCRLF_append hr, splitCRLF_renderTail hs hcond]

theorem splitSp2_render {method target protocol : List Char}
    (hm : ' ' ∉ method) (ht : ' ' ∉ target) :
    splitSp2 (renderReqLine method target protocol) =
      some (method, target, protocol) := by
  have hmem1 : ' ' ∈ method ++ ' ' :: (target ++ ' ' :: protocol) :=
    List.mem_append_right _ (List.mem_cons_self _ _)
  have hmem2 : ' ' ∈ target ++ ' ' :: protocol :=
    List.mem_append_right _ (List.mem_cons_self _ _)
  simp only [splitSp2, renderReqLine, breakAt, if_pos hmem1,
    takeWhile_append_of_not_mem _ hm, dropWhile_append_of_not_mem _ hm,
    List.tail_cons, if_pos hmem2,
    takeWhile_append_of_not_mem _ ht, dropWhile_append_of_not_mem _ ht]

/-- The environment updates the header loop performs, in list order. -/
def hFold (hs : List (List Char × List Char)) (e : Env) : Env :=
  hs.foldl (fun e p => envSet (kHTTP ++ canonKey p.1) (.str (pyStrip p.2)) e) e

theorem parseHeaders_structured :
    ∀ (hs : List (List Char × List Char)) (rest : List (List Char)) (e : Env),
      (∀ p ∈ hs, ':' ∉ p.1) →
      parseHeaders (hs.map renderHeaderLine ++ [] :: rest) e = hFold hs e := by
  intro hs
  induction hs with
  | nil =>
    intro rest e hcond
    simp [parseHeaders, hFold]
  | cons p t ih =>
    intro rest e hcond
    have hp : ':' ∉ p.1 := hcond p (List.mem_cons_self p t)
    have hne : renderHeaderLine p ≠ [] := by
      simp only [renderHeaderLine]
      intro hnil
      rcases List.append_eq_nil.mp hnil with ⟨-, h2⟩
      cases h2
    have hmem : ':' ∈ renderHeaderLine p :=
      List.mem_append_right _ (List.mem_cons_self _ _)
    rw [List.map_cons, List.cons_append]
    rw [parseHeaders, if_neg hne]
    simp only [renderHeaderLine, takeWhile_append_of_not_mem _ hp, if_pos hmem,
      dropWhile_append_of_not_mem _ hp, List.tail_cons]
    rw [ih rest _ fun q hq => hcond q (List.mem_cons_of_mem p hq)]
    rw [if_pos (show (':' ∈ p.1 ++ ':' :: p.2) from hmem)]
    rfl

theorem hFold_other : ∀ (hs : List (List Char × List Char)) (e : Env) (k : List Char),
    (∀ p ∈ hs, kHTTP ++ canonKey p.1 ≠ k) → hFold hs e k = e k := by
  intro hs
  induction hs with
  | nil => intro e k h; rfl
  | cons q t ih =>
    intro e k h
    rw [hFold, List.foldl_cons]
    rw [show List.foldl (fun e p => envSet (kHTTP ++ canonKey p.1)
        (.str (pyStrip p.2)) e) (envSet (kHTTP ++ canonKey q.1)
        (.str (pyStrip q.2)) e) t = hFold t (envSet (kHTTP ++ canonKey q.1)
        (.str (pyStrip q.2)) e) from rfl]
    rw [ih _ k fun p hp => h p (List.mem_cons_of_mem q hp)]
    exact envSet_ne fun hk => h q (List.mem_cons_self q t) hk.symm

theorem hFold_mem : ∀ (hs : List (List Char × List Char)) (e : Env)
    (p : List Char × List Char), p ∈ hs →
    ((hs.map fun q => canonKey q.1).Nodup) →
    hFold hs e (kHTTP ++ canonKey p.1) = some (.str (pyStrip p.2)) := by
  intro hs
  induction hs with
  | nil => intro e p hp; cases hp
  | cons q t ih =>
    intro e p hp hnd
    rw [List.map_cons, List.nodup_cons] at hnd
    rw [hFold, List.foldl_cons]
    rw [show List.foldl (fun e p => envSet (kHTTP ++ canonKey p.1)
        (.str (pyStrip p.2)) e) (envSet (kHTTP ++ canonKey q.1)
        (.str (pyStrip q.2)) e) t = hFold t (envSet (kHTTP ++ canonKey q.1)
        (.str (pyStrip q.2)) e) from rfl]
    rcases List.mem_cons.mp hp with hpq | hpt
    · subst hpq
      rw [hFold_other t _ _ ?_]
      · exact envSet_self
      · intro r hr hkey
        have : canonKey r.1 = canonKey p.1 := List.append_cancel_left hkey
        exact hnd.1 (this ▸ List.mem_map_of_mem (fun q => canonKey q.1) hr)
    · exact ih _ p hpt hnd.2

theorem realIpOverride_ne (cfg : Config) (e : Env) {k : List Char}
    (h : k ≠ kREMOTE_ADDR) : realIpOverride cfg e k = e k := by
  unfold realIpOverride
  cases cfg.realIpHeader with
  | none => rfl
  | some rk =>
    show (match e rk with
          | none => e
          | some v => envSet kREMOTE_ADDR v e) k = e k
    cases hrk : e rk with
    | none => rfl
    | some v => exact envSet_ne h

/-- When the delimiter is already in the read buffer at a positive index,
`read_until` returns through it at once without any `recv`. -/
theorem read_until_found {s : IOStream} {i : Nat}
    (h : findSub crlfcrlf s.read_buffer = some i) (hne : ¬ i = 0) :
    read_until crlfcrlf s =
      (.ok (s.read_buffer.take (i + 4)),
       { s with read_buffer := s.read_buffer.drop (i + 4) }) := by
  have hloop : readUntilLoop crlfcrlf s.read_buffer s.sock.incoming =
      (s.read_buffer, s.sock.incoming) := readUntilLoop_found (by simp [h])
  simp only [read_until, hloop, h, if_neg hne]
  rfl

/-- C5: for every well-formed HTTP/1.0 request, `parse_request` succeeds and
builds an environment with `REQUEST_METHOD` the method token (case
preserved), `SERVER_PROTOCOL` the protocol token, `PATH_INFO` the
percent-decoded path, `QUERY_STRING` present exactly when the target
contains `?` (holding the query verbatim), and one `HTTP_<NAME>` entry per
header with name uppercased, `-` mapped to `_`, and value trimmed. -/
theorem c5_parse_request_env (cfg : Config) (base : Env) (addr : Option (List Char))
    (sent : List Char) (opened : Bool) (inc : List (List Char))
    (extra wb : List Char) (method target protocol : List Char)
    (hs : List (List Char × List Char))
    (hm1 : ' ' ∉ method) (hm2 : '\r' ∉ method)
    (ht1 : ' ' ∉ target) (ht2 : '\r' ∉ target) (hp2 : '\r' ∉ protocol)
    (hh : ∀ p ∈ hs, ':' ∉ p.1 ∧ '\r' ∉ p.1 ∧ '\r' ∉ p.2)
    (hnd : (hs.map fun p => canonKey p.1).Nodup)
    (hbq : base kQUERY_STRING = none) :
    ∃ env : Env,
      (parse_request cfg base addr
          ⟨⟨sent, opened, inc⟩,
           renderBlock (renderReqLine method target protocol) hs ++ extra, wb⟩).1 =
        .ok (renderReqLine method target protocol, env) ∧
      env kREQUEST_METHOD = some (.str method) ∧
      env kSERVER_PROTOCOL = some (.str protocol) ∧
      ('?' ∉ target →
        env kPATH_INFO = some (.str (urlunquote target)) ∧
        env kQUERY_STRING = none) ∧
      ('?' ∈ target →
        env kPATH_INFO = some (.str (urlunquote (target.takeWhile fun c => c ≠ '?'))) ∧
        env kQUERY_STRING = some (.str ((target.dropWhile fun c => c ≠ '?').tail))) ∧
      (∀ p ∈ hs, env (kHTTP ++ canonKey p.1) = some (.str (pyStrip p.2))) := by
  have hcond : ∀ p ∈ hs, '\r' ∉ p.1 ∧ '\r' ∉ p.2 :=
    fun p hp => ⟨(hh p hp).2.1, (hh p hp).2.2⟩
  have hhc : ∀ p ∈ hs, ':' ∉ p.1 := fun p hp => (hh p hp).1
  have hr : '\r' ∉ renderReqLine method target protocol := by
    simp only [renderReqLine, List.mem_append, List.mem_cons]
    rintro (h | h | h | h | h)
    · exact hm2 h
    · exact absurd h (by decide)
    · exact ht2 h
    · exact absurd h (by decide)
    · exact hp2 h
  have hfind := findSub_crlfcrlf_renderBlock hr hcond extra
  have hrlen : 2 ≤ (renderReqLine method target protocol).length := by
    simp only [renderReqLine, List.length_append, List.length_cons]
    omega
  have hge := @renderTail_length_ge hs
  have hne0 : ¬ ((renderReqLine method target protocol).length +
      (renderTail hs).length - 2 = 0) := by omega
  have hru := @read_until_found
    ⟨⟨sent, opened, inc⟩,
     renderBlock (renderReqLine method target protocol) hs ++ extra, wb⟩
    ((renderReqLine method target protocol).length + (renderTail hs).length - 2)
    hfind hne0
  have hlenB : (renderBlock (renderReqLine method target protocol) hs).length =
      (renderReqLine method target protocol).length + 2 + (renderTail hs).length := by
    simp only [renderBlock, crlf, List.length_append, List.length_cons,
      List.length_nil]
  have hi4 : (renderReqLine method target protocol).length +
      (renderTail hs).length - 2 + 4 =
      (renderBlock (renderReqLine method target protocol) hs).length := by omega
  have htake : ((renderBlock (renderReqLine method target protocol) hs ++
      extra).take ((renderReqLine method target protocol).length +
        (renderTail hs).length - 2 + 4)) =
      renderBlock (renderReqLine method target protocol) hs := by
    rw [hi4, List.take_left]
  have hpr : (parse_request cfg base addr
      ⟨⟨sent, opened, inc⟩,
       renderBlock (renderReqLine method target protocol) hs ++ extra, wb⟩).1 =
      parseRequestData cfg base addr
        (renderBlock (renderReqLine method target protocol) hs) := by
    simp only [parse_request, hru]
    rw [htake]
  by_cases hq : '?' ∈ target
  · refine ⟨realIpOverride cfg (hFold hs (envSet kWSGI_INPUT .stream
      (envSet kPATH_INFO (.str (urlunquote (target.takeWhile fun c => c ≠ '?')))
        (envSet kQUERY_STRING (.str ((target.dropWhile fun c => c ≠ '?').tail))
          (envSet kREMOTE_ADDR (.str (addr.getD []))
            (envSet kSERVER_PROTOCOL (.str protocol)
              (envSet kREQUEST_METHOD (.str method) base))))))),
      ?_, ?_, ?_, ?_, ?_, ?_⟩
    · rw [hpr]
      simp only [parseRequestData, splitCRLF_renderBlock hr hcond, List.headD_cons,
        List.tail_cons, splitSp2_render hm1 ht1]
      rw [parseHeaders_structured hs [[]] _ hhc]
      rw [if_pos hq]
    · rw [realIpOverride_ne cfg _ (show kREQUEST_METHOD ≠ kREMOTE_ADDR by decide)]
      rw [hFold_other hs _ kREQUEST_METHOD fun p hp => cons_ne_of_head (by decide)]
      rw [envSet_ne (show kREQUEST_METHOD ≠ kWSGI_INPUT by decide),
          envSet_ne (show kREQUEST_METHOD ≠ kPATH_INFO by decide),
          envSet_ne (show kREQUEST_METHOD ≠ kQUERY_STRING by decide),
          envSet_ne (show kREQUEST_METHOD ≠ kREMOTE_ADDR by decide),
          envSet_ne (show kREQUEST_METHOD ≠ kSERVER_PROTOCOL by decide)]
      exact envSet_self
    · rw [realIpOverride_ne cfg _ (show kSERVER_PROTOCOL ≠ kREMOTE_ADDR by decide)]
      rw [hFold_other hs _ kSERVER_PROTOCOL fun p hp => cons_ne_of_head (by decide)]
      rw [envSet_ne (show kSERVER_PROTOCOL ≠ kWSGI_INPUT by decide),
          envSet_ne (show kSERVER_PROTOCOL ≠ kPATH_INFO by decide),
          envSet_ne (show kSERVER_PROTOCOL ≠ kQUERY_STRING by decide),
          envSet_ne (show kSERVER_PROTOCOL ≠ kREMOTE_ADDR by decide)]
      exact envSet_self
    · intro hnq
      exact absurd hq hnq
    · intro _
      constructor
      · rw [realIpOverride_ne cfg _ (show kPATH_INFO ≠ kREMOTE_ADDR by decide)]
        rw [hFold_other hs _ kPATH_INFO fun p hp => cons_ne_of_head (by decide)]
        rw [envSet_ne (show kPATH_INFO ≠ kWSGI_INPUT by decide)]
        exact envSet_self
      · rw [realIpOverride_ne cfg _ (show kQUERY_STRING ≠ kREMOTE_ADDR by decide)]
        rw [hFold_other hs _ kQUERY_STRING fun p hp => cons_ne_of_head (by decide)]
        rw [envSet_ne (show kQUERY_STRING ≠ kWSGI_INPUT by decide),
            envSet_ne (show kQUERY_STRING ≠ kPATH_INFO by decide)]
        exact envSet_self
    · intro p hp
      rw [realIpOverride_ne cfg _
        (show kHTTP ++ canonKey p.1 ≠ kREMOTE_ADDR from cons_ne_of_head (by decide))]
      exact hFold_mem hs _ p hp hnd
  · refine ⟨realIpOverride cfg (hFold hs (envSet kWSGI_INPUT .stream
      (envSet kPATH_INFO (.str (urlunquote target))
        (envSet kREMOTE_ADDR (.str (addr.getD []))
          (envSet kSERVER_PROTOCOL (.str protocol)
            (envSet kREQUEST_METHOD (.str method) base)))))),
      ?_, ?_, ?_, ?_, ?_, ?_⟩
    · rw [hpr]
      simp only [parseRequestData, splitCRLF_renderBlock hr hcond, List.headD_cons,
        List.tail_cons, splitSp2_render hm1 ht1]
      rw [parseHeaders_structured hs [[]] _ hhc]
      rw [if_neg hq]
    · rw [realIpOverride_ne cfg _ (show kREQUEST_METHOD ≠ kREMOTE_ADDR by decide)]
      rw [hFold_other hs _ kREQUEST_METHOD fun p hp => cons_ne_of_head (by decide)]
      rw [envSet_ne (show kREQUEST_METHOD ≠ kWSGI_INPUT by decide),
          envSet_ne (show kREQUEST_METHOD ≠ kPATH_INFO by decide),
          envSet_ne (show kREQUEST_METHOD ≠ kREMOTE_ADDR by decide),
          envSet_ne (show kREQUEST_METHOD ≠ kSERVER_PROTOCOL by decide)]
      exact envSet_self
    · rw [realIpOverride_ne cfg _ (show kSERVER_PROTOCOL ≠ kREMOTE_ADDR by decide)]
      rw [hFold_other hs _ kSERVER_PROTOCOL fun p hp => cons_ne_of_head (by decide)]
      rw [envSet_ne (show kSERVER_PROTOCOL ≠ kWSGI_INPUT by decide),
          envSet_ne (show kSERVER_PROTOCOL ≠ kPATH_INFO by decide),
          envSet_ne (show kSERVER_PROTOCOL ≠ kREMOTE_ADDR by decide)]
      exact envSet_self
    · intro _
      constructor
      · rw [realIpOverride_ne cfg _ (show kPATH_INFO ≠ kREMOTE_ADDR by decide)]
        rw [hFold_other hs _ kPATH_INFO fun p hp => cons_ne_of_head (by decide)]
        rw [envSet_ne (show kPATH_INFO ≠ kWSGI_INPUT by decide)]
        exact envSet_self
      · rw [realIpOverride_ne cfg _ (show kQUERY_STRING ≠ kREMOTE_ADDR by decide)]
        rw [hFold_other hs _ kQUERY_STRING fun p hp => cons_ne_of_head (by decide)]
        rw [envSet_ne (show kQUERY_STRING ≠ kWSGI_INPUT by decide),
            envSet_ne (show kQUERY_STRING ≠ kPATH_INFO by decide),
            envSet_ne (show kQUERY_STRING ≠ kREMOTE_ADDR by decide),
            envSet_ne (show kQUERY_STRING ≠ kSERVER_PROTOCOL by decide),
            envSet_ne (show kQUERY_STRING ≠ kREQUEST_METHOD by decide)]
        exact hbq
    · intro hq2
      exact absurd hq2 hq
    · intro p hp
      rw [realIpOverride_ne cfg _
        (show kHTTP ++ canonKey p.1 ≠ kREMOTE_ADDR from cons_ne_of_head (by decide))]
      exact hFold_mem hs _ p hp hnd

/-- C5 witness: `GET /a%20b?x=1 HTTP/1.0` with header `Host: example `
(surrounding blanks in the raw value) parses as claimed. -/
theorem c5_parse_request_env_witness :
    ∃ env : Env,
      (parse_request ⟨.callable fun _ => Except.error .valueError, none⟩
          (fun _ => none) none
          ⟨⟨[], true, []⟩,
           renderBlock (renderReqLine "GET".data "/a%20b?x=1".data "HTTP/1.0".data)
             [("Host".data, " example ".data)] ++ [], []⟩).1 =
        .ok (renderReqLine "GET".data "/a%20b?x=1".data "HTTP/1.0".data, env) ∧
      env kREQUEST_METHOD = some (.str "GET".data) ∧
      env kSERVER_PROTOCOL = some (.str "HTTP/1.0".data) ∧
      ('?' ∉ "/a%20b?x=1".data →
        env kPATH_INFO = some (.str (urlunquote "/a%20b?x=1".data)) ∧
        env kQUERY_STRING = none) ∧
      ('?' ∈ "/a%20b?x=1".data →
        env kPATH_INFO =
          some (.str (urlunquote ("/a%20b?x=1".data.takeWhile fun c => c ≠ '?'))) ∧
        env kQUERY_STRING =
          some (.str (("/a%20b?x=1".data.dropWhile fun c => c ≠ '?').tail))) ∧
      (∀ p ∈ [("Host".data, " example ".data)],
        env (kHTTP ++ canonKey p.1) = some (.str (pyStrip p.2))) :=
  c5_parse_request_env ⟨.callable fun _ => Except.error .valueError, none⟩
    (fun _ => none) none [] true [] [] [] "GET".data "/a%20b?x=1".data
    "HTTP/1.0".data [("Host".data, " example ".data)]
    (by decide) (by decide) (by decide) (by decide) (by decide)
    (by decide) (by decide) rfl
